import Mathlib

/-!
# Verification of the flyer asset resolution and extraction pipeline

Shallow embedding of the URL/HTML utilities, tile-grid reconstruction,
tiling engine, batch extraction orchestrator and de-duplication logic of
the flyer-menu application (`src/app/lib/flyer.ts`,
`src/app/lib/flyerDiscover.ts`, `src/app/api/flyer/extract-url/route.ts`,
`src/app/api/flyer/resolve/route.ts`), together with theorems checking the
specification's claims about them.

Strings are modelled at the `List Char` level where character-by-character
processing matters.  JavaScript's WHATWG `new URL` constructor (a host
builtin, not repository code) is modelled by `parseUrlC` on the fragment of
URL syntax the pipeline exercises: `http(s)://host/path?query#frag` with
hosts over `[a-z0-9.-]` and no userinfo/port/percent-encoding/dot-segment
normalization.  Scheme and host case-insensitivity are modelled since the
code depends on them.
-/

namespace FlyerMenu

/-! ## Character classes (modelling the JS character semantics used) -/

/-- Model of JS `String.prototype.toLowerCase` restricted to one character:
ASCII `A-Z` and full-width `Ａ-Ｚ` are lowered, every other character is kept.
(The full Unicode case map is approximated; the pipeline's data only exercises
ASCII and full-width Latin.) -/
def lowerJS (c : Char) : Char :=
  if 65 ≤ c.toNat ∧ c.toNat ≤ 90 then Char.ofNat (c.toNat + 32)
  else if 0xFF21 ≤ c.toNat ∧ c.toNat ≤ 0xFF3A then Char.ofNat (c.toNat + 32)
  else c

/-- Model of the JS regex class `\s` (the whitespace characters recognised by
`replace(/\s+/g, ...)` and `trim`), by code point. -/
def isWsChar (c : Char) : Bool :=
  decide (c.toNat = 0x20 ∨ (0x9 ≤ c.toNat ∧ c.toNat ≤ 0xD) ∨
    c.toNat = 0xA0 ∨ c.toNat = 0x1680 ∨
    (0x2000 ≤ c.toNat ∧ c.toNat ≤ 0x200A) ∨
    c.toNat = 0x2028 ∨ c.toNat = 0x2029 ∨ c.toNat = 0x202F ∨
    c.toNat = 0x205F ∨ c.toNat = 0x3000 ∨ c.toNat = 0xFEFF)

/-- The punctuation class stripped by `makeDedupKey`
(`/[（）()\[\]【】「」『』・,，.．。:：/／]/g`), by code point:
`（ ） ( ) [ ] 【 】 「 」 『 』 ・ , ， . ． 。 : ： / ／`. -/
def isPunctChar (c : Char) : Bool :=
  decide (c.toNat = 0xFF08 ∨ c.toNat = 0xFF09 ∨ c.toNat = 0x28 ∨
    c.toNat = 0x29 ∨ c.toNat = 0x5B ∨ c.toNat = 0x5D ∨
    c.toNat = 0x3010 ∨ c.toNat = 0x3011 ∨ c.toNat = 0x300C ∨
    c.toNat = 0x300D ∨ c.toNat = 0x300E ∨ c.toNat = 0x300F ∨
    c.toNat = 0x30FB ∨ c.toNat = 0x2C ∨ c.toNat = 0xFF0C ∨
    c.toNat = 0x2E ∨ c.toNat = 0xFF0E ∨ c.toNat = 0x3002 ∨
    c.toNat = 0x3A ∨ c.toNat = 0xFF1A ∨ c.toNat = 0x2F ∨ c.toNat = 0xFF0F)

/-- ASCII digit test (JS `\d`). -/
def isDigitChar (c : Char) : Bool := decide (48 ≤ c.toNat ∧ c.toNat ≤ 57)

/-- Characters permitted in a (lower-cased) hostname in the URL model:
`a-z`, `0-9`, `.` and `-`. -/
def hostChar (c : Char) : Bool :=
  decide ((97 ≤ c.toNat ∧ c.toNat ≤ 122) ∨ (48 ≤ c.toNat ∧ c.toNat ≤ 57) ∨
    c.toNat = 46 ∨ c.toNat = 45)

/-- A character terminating the authority section of a URL (`/`, `?`, `#`). -/
def urlDelim (c : Char) : Bool :=
  decide (c.toNat = 47 ∨ c.toNat = 63 ∨ c.toNat = 35)

theorem lowerJS_fixed_of_not_letter {c : Char}
    (h1 : ¬(65 ≤ c.toNat ∧ c.toNat ≤ 90))
    (h2 : ¬(0xFF21 ≤ c.toNat ∧ c.toNat ≤ 0xFF3A)) : lowerJS c = c := by
  simp [lowerJS, h1, h2]

theorem toNat_lowerJS_of_upper {c : Char} (h : 65 ≤ c.toNat ∧ c.toNat ≤ 90) :
    (lowerJS c).toNat = c.toNat + 32 := by
  have hv : (c.toNat + 32).isValidChar := by
    left
    omega
  simp only [lowerJS, h, and_self, if_pos]
  rw [Char.ofNat, dif_pos hv]
  simp [Char.ofNatAux, Char.toNat, UInt32.toNat]

theorem toNat_lowerJS_of_fullwidth {c : Char}
    (h : 0xFF21 ≤ c.toNat ∧ c.toNat ≤ 0xFF3A) :
    (lowerJS c).toNat = c.toNat + 32 := by
  have h' : ¬(65 ≤ c.toNat ∧ c.toNat ≤ 90) := by omega
  have hv : (c.toNat + 32).isValidChar := by
    right
    constructor <;> omega
  simp only [lowerJS, if_neg h', h, and_self, if_pos]
  rw [Char.ofNat, dif_pos hv]
  simp [Char.ofNatAux, Char.toNat, UInt32.toNat]

/-- Either `lowerJS` fixes `c`, or it shifts a (half/full-width) capital
letter down by 32 code points. -/
theorem lowerJS_cases (c : Char) :
    lowerJS c = c ∨
    ((65 ≤ c.toNat ∧ c.toNat ≤ 90 ∨ 0xFF21 ≤ c.toNat ∧ c.toNat ≤ 0xFF3A) ∧
      (lowerJS c).toNat = c.toNat + 32) := by
  by_cases h1 : 65 ≤ c.toNat ∧ c.toNat ≤ 90
  · exact Or.inr ⟨Or.inl h1, toNat_lowerJS_of_upper h1⟩
  · by_cases h2 : 0xFF21 ≤ c.toNat ∧ c.toNat ≤ 0xFF3A
    · exact Or.inr ⟨Or.inr h2, toNat_lowerJS_of_fullwidth h2⟩
    · exact Or.inl (lowerJS_fixed_of_not_letter h1 h2)

theorem lowerJS_idem (c : Char) : lowerJS (lowerJS c) = lowerJS c := by
  rcases lowerJS_cases c with h | ⟨hr, hn⟩
  · rw [h, h]
  · apply lowerJS_fixed_of_not_letter <;> omega

theorem lowerJS_fixed_of_hostChar {c : Char} (h : hostChar c = true) :
    lowerJS c = c := by
  rw [hostChar, decide_eq_true_eq] at h
  apply lowerJS_fixed_of_not_letter <;> omega

theorem isWsChar_lowerJS (c : Char) : isWsChar (lowerJS c) = isWsChar c := by
  rcases lowerJS_cases c with h | ⟨hr, hn⟩
  · rw [h]
  · rw [Bool.eq_iff_iff, isWsChar, isWsChar, decide_eq_true_eq, decide_eq_true_eq]
    omega

theorem isPunctChar_lowerJS (c : Char) : isPunctChar (lowerJS c) = isPunctChar c := by
  rcases lowerJS_cases c with h | ⟨hr, hn⟩
  · rw [h]
  · rw [Bool.eq_iff_iff, isPunctChar, isPunctChar, decide_eq_true_eq, decide_eq_true_eq]
    omega

theorem hostChar_not_urlDelim {c : Char} (h : hostChar c = true) :
    urlDelim c = false := by
  rw [hostChar, decide_eq_true_eq] at h
  rw [urlDelim, decide_eq_false_iff_not]
  omega

/-! ## List-of-characters utilities -/

/-- `startsWithL pat l` is true when `pat` is an initial run of `l`
(model of JS `String.prototype.startsWith` on decoded character lists). -/
def startsWithL : List Char → List Char → Bool
  | [], _ => true
  | _ :: _, [] => false
  | p :: ps, c :: cs => p = c && startsWithL ps cs

theorem startsWithL_eq_true {pat l : List Char} :
    startsWithL pat l = true ↔ ∃ t, l = pat ++ t := by
  induction pat generalizing l with
  | nil => simp [startsWithL]
  | cons p ps ih =>
    cases l with
    | nil => simp [startsWithL]
    | cons c cs =>
      simp only [startsWithL, Bool.and_eq_true, decide_eq_true_eq, ih,
        List.cons_append, List.cons.injEq]
      constructor
      · rintro ⟨rfl, t, rfl⟩
        exact ⟨t, rfl, rfl⟩
      · rintro ⟨t, rfl, rfl⟩
        exact ⟨rfl, t, rfl⟩

/-- Fuel-driven scanner for `replaceAllL` (structural recursion on the fuel
so that the kernel can evaluate it; each step consumes at least one input
character, so `fuel = l.length` never runs out). -/
def replaceAllGo (pat repl : List Char) : ℕ → List Char → List Char
  | 0, l => l
  | _ + 1, [] => []
  | fuel + 1, c :: rest =>
    if pat ≠ [] ∧ startsWithL pat (c :: rest) = true then
      repl ++ replaceAllGo pat repl fuel ((c :: rest).drop pat.length)
    else
      c :: replaceAllGo pat repl fuel rest

/-- Model of JS `String.prototype.replaceAll` with a literal pattern: scans
left to right replacing non-overlapping occurrences of `pat` by `repl`.
A degenerate empty pattern is returned unchanged (the code only uses
non-empty literal patterns). -/
def replaceAllL (pat repl : List Char) (l : List Char) : List Char :=
  replaceAllGo pat repl l.length l

/-- JS `String.prototype.trim` on a character list (strips the `\s` class
from both ends). -/
def trimL (l : List Char) : List Char :=
  (l.dropWhile isWsChar).reverse.dropWhile isWsChar |>.reverse

/-- Split a character list at the first occurrence of `sep`: returns the
part before it and, when `sep` occurs, the part after it. -/
def breakAtCh (sep : Char) : List Char → List Char × Option (List Char)
  | [] => ([], none)
  | c :: rest =>
    if c = sep then ([], some rest)
    else
      let p := breakAtCh sep rest
      (c :: p.1, p.2)

theorem breakAtCh_not_mem {sep : Char} {l : List Char} (h : sep ∉ l) :
    breakAtCh sep l = (l, none) := by
  induction l with
  | nil => rfl
  | cons c rest ih =>
    have hc : ¬c = sep := fun hc => h (hc ▸ List.mem_cons_self c rest)
    simp only [breakAtCh, if_neg hc]
    rw [ih (fun hm => h (List.mem_cons_of_mem c hm))]

theorem breakAtCh_append {sep : Char} {a b : List Char} (h : sep ∉ a) :
    breakAtCh sep (a ++ sep :: b) = (a, some b) := by
  induction a with
  | nil => simp [breakAtCh]
  | cons c rest ih =>
    have hc : ¬c = sep := fun hc => h (hc ▸ List.mem_cons_self c rest)
    simp only [List.cons_append, breakAtCh, if_neg hc, List.append_eq]
    rw [ih (fun hm => h (List.mem_cons_of_mem c hm))]

/-- Split on every occurrence of `sep` (model of JS `String.split(sep)` for a
one-character separator); always returns a non-empty list of parts. -/
def splitOnCh (sep : Char) : List Char → List (List Char)
  | [] => [[]]
  | c :: rest =>
    let r := splitOnCh sep rest
    if c = sep then [] :: r
    else
      match r with
      | s :: ss => (c :: s) :: ss
      | [] => [[c]]

/-- Interleave `sep` between the parts (model of `Array.prototype.join`). -/
def joinCh (sep : Char) : List (List Char) → List Char
  | [] => []
  | [x] => x
  | x :: y :: ys => x ++ sep :: joinCh sep (y :: ys)

theorem splitOnCh_ne_nil (sep : Char) (l : List Char) : splitOnCh sep l ≠ [] := by
  cases l with
  | nil => simp [splitOnCh]
  | cons c rest =>
    simp only [splitOnCh]
    split
    · simp
    · rcases h : splitOnCh sep rest with _ | ⟨s, ss⟩ <;> simp

theorem splitOnCh_not_mem {sep : Char} {l : List Char} (h : sep ∉ l) :
    splitOnCh sep l = [l] := by
  induction l with
  | nil => rfl
  | cons c rest ih =>
    have hc : ¬c = sep := fun hc => h (hc ▸ List.mem_cons_self c rest)
    simp only [splitOnCh, if_neg hc]
    rw [ih (fun hm => h (List.mem_cons_of_mem c hm))]

theorem splitOnCh_append_cons {sep : Char} {a t : List Char} (h : sep ∉ a) :
    splitOnCh sep (a ++ sep :: t) = a :: splitOnCh sep t := by
  induction a with
  | nil => simp [splitOnCh]
  | cons c rest ih =>
    have hc : ¬c = sep := fun hc => h (hc ▸ List.mem_cons_self c rest)
    simp only [List.cons_append, splitOnCh, if_neg hc, List.append_eq]
    rw [ih (fun hm => h (List.mem_cons_of_mem c hm))]

/-- `splitOnCh` undoes `joinCh` when no part contains the separator. -/
theorem splitOnCh_joinCh {sep : Char} :
    ∀ {ps : List (List Char)}, ps ≠ [] → (∀ p ∈ ps, sep ∉ p) →
      splitOnCh sep (joinCh sep ps) = ps
  | [], h, _ => absurd rfl h
  | [x], _, hs => by
    simp only [joinCh]
    exact splitOnCh_not_mem (hs x (List.mem_singleton_self x))
  | x :: y :: ys, _h, hs => by
    simp only [joinCh]
    rw [splitOnCh_append_cons (hs x (List.mem_cons_self x _))]
    congr 1
    exact splitOnCh_joinCh (by simp) fun p hp => hs p (List.mem_cons_of_mem x hp)

theorem joinCh_ne_nil {sep : Char} {ps : List (List Char)}
    (h0 : ps ≠ []) (h1 : ps ≠ [[]]) : joinCh sep ps ≠ [] := by
  match ps with
  | [x] =>
    simp only [joinCh]
    intro hx
    exact h1 (by rw [hx])
  | x :: y :: ys =>
    simp only [joinCh]
    intro hx
    rcases List.append_eq_nil.mp hx with ⟨_, h⟩
    exact List.cons_ne_nil _ _ h

theorem mem_joinCh {sep : Char} {ps : List (List Char)} {c : Char}
    (h : c ∈ joinCh sep ps) : c = sep ∨ ∃ p ∈ ps, c ∈ p := by
  match ps with
  | [] => simp [joinCh] at h
  | [x] =>
    simp only [joinCh] at h
    exact Or.inr ⟨x, List.mem_singleton_self x, h⟩
  | x :: y :: ys =>
    simp only [joinCh, List.mem_append, List.mem_cons] at h
    rcases h with h | h | h
    · exact Or.inr ⟨x, List.mem_cons_self x _, h⟩
    · exact Or.inl h
    · rcases mem_joinCh h with h' | ⟨p, hp, hc⟩
      · exact Or.inl h'
      · exact Or.inr ⟨p, List.mem_cons_of_mem x hp, hc⟩

/-! ## URL model

The WHATWG `new URL` builtin is modelled on the syntax fragment
`http(s)://host/path?query#fragment` (lower-cased scheme and host), which is
the fragment the pipeline's URLs inhabit.  `segs` is the path split at `/`:
pathname `"/"` is `[]`, pathname `"/a/b"` is `[a, b]`, a trailing slash
appears as a final empty segment. -/

structure Url where
  secure : Bool
  host : List Char
  segs : List (List Char)
  query : Option (List Char)
  frag : Option (List Char)
deriving DecidableEq, Repr

/-- The scheme characters of the model's two schemes. -/
def schemeChars (secure : Bool) : List Char :=
  if secure then 'h' :: 't' :: 't' :: 'p' :: 's' :: []
  else 'h' :: 't' :: 't' :: 'p' :: []

/-- Classify a raw scheme as `http` / `https` (case-insensitively), or reject. -/
def schemeSecure (l : List Char) : Option Bool :=
  if l.map lowerJS = schemeChars false then some false
  else if l.map lowerJS = schemeChars true then some true
  else none

/-- Parse a (possibly empty) absolute path into segments: the empty path and
`"/"` normalize to `[]`, otherwise the leading `/` is stripped and the rest is
split at `/`.  A non-empty path not starting with `/` is rejected. -/
def parsePath (p : List Char) : Option (List (List Char)) :=
  match p with
  | [] => some []
  | c :: rest =>
    if c = '/' then
      if rest = [] then some [] else some (splitOnCh '/' rest)
    else none

/-- Parse the path/query/fragment tail of a URL (everything after the
authority).  The fragment starts at the first `#`, the query at the first `?`
before it, and the path is split at `/`. -/
def parsePQF (l : List Char) :
    Option (List (List Char) × Option (List Char) × Option (List Char)) :=
  (parsePath (breakAtCh '?' (breakAtCh '#' l).1).1).map fun segs =>
    (segs, (breakAtCh '?' (breakAtCh '#' l).1).2, (breakAtCh '#' l).2)

/-- Parse the part after `scheme://`: authority (validated, lower-cased
host) followed by path/query/fragment. -/
def parseAfterScheme (secure : Bool) (r : List Char) : Option Url :=
  if (r.takeWhile fun c => !urlDelim c).map lowerJS = [] ∨
      ¬(((r.takeWhile fun c => !urlDelim c).map lowerJS).all hostChar = true) then
    none
  else
    match parsePQF (r.dropWhile fun c => !urlDelim c) with
    | none => none
    | some (segs, query, frag) =>
      some ⟨secure, (r.takeWhile fun c => !urlDelim c).map lowerJS, segs, query, frag⟩

/-- Model of the WHATWG `new URL(s)` constructor on the documented fragment
(returns `none` where JS throws, and also on syntax outside the modelled
fragment: non-http(s) schemes, userinfo, ports, IPv6 hosts, missing `//`). -/
def parseUrlC (l : List Char) : Option Url :=
  match breakAtCh ':' l with
  | (_, none) => none
  | (schemePart, some rest) =>
    match schemeSecure schemePart with
    | none => none
    | some secure =>
      match rest with
      | '/' :: '/' :: r => parseAfterScheme secure r
      | _ => none

/-- Serialization (model of `URL.prototype.toString` / `href`). -/
def serializeUrl (u : Url) : List Char :=
  schemeChars u.secure ++ ':' :: '/' :: '/' :: u.host ++
    '/' :: joinCh '/' u.segs ++
    (match u.query with
     | none => []
     | some q => '?' :: q) ++
    (match u.frag with
     | none => []
     | some f => '#' :: f)

/-- `origin` of a URL (`scheme://host`; the model has no ports). -/
def originChars (u : Url) : List Char :=
  schemeChars u.secure ++ ':' :: '/' :: '/' :: u.host

/-- Well-formedness invariant satisfied by every parsed URL: non-empty
validated host, segments free of delimiters, query free of `#`, and the
normalized empty-path representation. -/
def Url.WF (u : Url) : Prop :=
  u.host ≠ [] ∧ u.host.all hostChar = true ∧ u.segs ≠ [[]] ∧
    (∀ p ∈ u.segs, ∀ c ∈ p, urlDelim c = false) ∧
    (∀ q, u.query = some q → '#' ∉ q)

instance (u : Url) : Decidable u.WF := by
  unfold Url.WF
  infer_instance

theorem char_eq_of_toNat_eq {a b : Char} (h : a.toNat = b.toNat) : a = b := by
  rw [← Char.ofNat_toNat a, ← Char.ofNat_toNat b, h]

theorem urlDelim_eq_false_iff {c : Char} :
    urlDelim c = false ↔ c ≠ '/' ∧ c ≠ '?' ∧ c ≠ '#' := by
  rw [urlDelim, decide_eq_false_iff_not]
  push_neg
  constructor
  · rintro ⟨h1, h2, h3⟩
    refine ⟨?_, ?_, ?_⟩ <;> rintro rfl <;> simp_all
  · rintro ⟨h1, h2, h3⟩
    refine ⟨?_, ?_, ?_⟩ <;> intro hn
    · exact h1 (char_eq_of_toNat_eq (by rw [hn]; rfl))
    · exact h2 (char_eq_of_toNat_eq (by rw [hn]; rfl))
    · exact h3 (char_eq_of_toNat_eq (by rw [hn]; rfl))

theorem breakAtCh_fst_not_mem (sep : Char) (l : List Char) :
    sep ∉ (breakAtCh sep l).1 := by
  induction l with
  | nil => simp [breakAtCh]
  | cons c rest ih =>
    simp only [breakAtCh]
    split
    · simp
    next hc =>
      simp only [List.mem_cons, not_or]
      exact ⟨fun hs => hc hs.symm, ih⟩

theorem breakAtCh_fst_subset {sep c : Char} {l : List Char}
    (h : c ∈ (breakAtCh sep l).1) : c ∈ l := by
  induction l with
  | nil => simp [breakAtCh] at h
  | cons a rest ih =>
    simp only [breakAtCh] at h
    split at h
    · simp at h
    · simp only [List.mem_cons] at h ⊢
      rcases h with h | h
      · exact Or.inl h
      · exact Or.inr (ih h)

theorem breakAtCh_snd_subset {sep c : Char} {l t : List Char}
    (h : (breakAtCh sep l).2 = some t) (hc : c ∈ t) : c ∈ l := by
  induction l with
  | nil => simp [breakAtCh] at h
  | cons a rest ih =>
    simp only [breakAtCh] at h
    split at h
    next ha =>
      injection h with h
      subst h ha
      exact List.mem_cons_of_mem _ hc
    · exact List.mem_cons_of_mem _ (ih h)

theorem splitOnCh_parts {sep : Char} {l : List Char} {p : List Char}
    (h : p ∈ splitOnCh sep l) : sep ∉ p ∧ ∀ c ∈ p, c ∈ l := by
  induction l generalizing p with
  | nil =>
    simp only [splitOnCh, List.mem_singleton] at h
    subst h
    simp
  | cons a rest ih =>
    simp only [splitOnCh] at h
    split at h
    next ha =>
      subst ha
      simp only [List.mem_cons] at h
      rcases h with h | h
      · subst h
        simp
      · rcases ih h with ⟨h1, h2⟩
        exact ⟨h1, fun c hc => List.mem_cons_of_mem _ (h2 c hc)⟩
    next ha =>
      rcases hr : splitOnCh sep rest with _ | ⟨s, ss⟩
      · exact absurd hr (splitOnCh_ne_nil sep rest)
      · rw [hr] at h
        simp only [List.mem_cons] at h
        rcases h with h | h
        · subst h
          have hs : s ∈ splitOnCh sep rest := by
            rw [hr]
            exact List.mem_cons_self s ss
          rcases ih hs with ⟨h1, h2⟩
          refine ⟨?_, ?_⟩
          · simp only [List.mem_cons, not_or]
            exact ⟨fun hx => ha hx.symm, h1⟩
          · intro c hc
            simp only [List.mem_cons] at hc ⊢
            rcases hc with hc | hc
            · exact Or.inl hc
            · exact Or.inr (h2 c hc)
        · have hs : p ∈ splitOnCh sep rest := by
            rw [hr]
            exact List.mem_cons_of_mem s h
          rcases ih hs with ⟨h1, h2⟩
          exact ⟨h1, fun c hc => List.mem_cons_of_mem _ (h2 c hc)⟩

theorem splitOnCh_ne_singleton_nil {sep : Char} {l : List Char} (hl : l ≠ []) :
    splitOnCh sep l ≠ [[]] := by
  cases l with
  | nil => exact absurd rfl hl
  | cons a rest =>
    simp only [splitOnCh]
    split
    · intro h
      injection h with _ h
      exact splitOnCh_ne_nil sep rest h
    · rcases hr : splitOnCh sep rest with _ | ⟨s, ss⟩
      · exact absurd hr (splitOnCh_ne_nil sep rest)
      · simp

theorem parsePath_wf {p : List Char} {segs : List (List Char)}
    (h : parsePath p = some segs) :
    segs ≠ [[]] ∧ ∀ s ∈ segs, '/' ∉ s ∧ ∀ c ∈ s, c ∈ p := by
  unfold parsePath at h
  split at h
  · injection h with h
    subst h
    simp
  next c rest =>
    split at h
    next hc =>
      subst hc
      split at h
      · injection h with h
        subst h
        simp
      next hrest =>
        injection h with h
        subst h
        refine ⟨splitOnCh_ne_singleton_nil hrest, ?_⟩
        intro s hs
        rcases splitOnCh_parts hs with ⟨h1, h2⟩
        exact ⟨h1, fun d hd => List.mem_cons_of_mem _ (h2 d hd)⟩
    · exact absurd h (by simp)

theorem parsePQF_wf {l : List Char} {segs : List (List Char)}
    {query frag : Option (List Char)}
    (h : parsePQF l = some (segs, query, frag)) :
    segs ≠ [[]] ∧ (∀ p ∈ segs, ∀ c ∈ p, urlDelim c = false) ∧
      (∀ q, query = some q → '#' ∉ q) := by
  have hq_no_hash : ∀ q, (breakAtCh '?' (breakAtCh '#' l).1).2 = some q → '#' ∉ q := by
    intro q hq hmem
    exact breakAtCh_fst_not_mem '#' l (breakAtCh_snd_subset hq hmem)
  unfold parsePQF at h
  rcases hp : parsePath (breakAtCh '?' (breakAtCh '#' l).1).1 with _ | segs0
  · rw [hp] at h
    exact absurd h (by simp)
  · rw [hp] at h
    simp only [Option.map_some'] at h
    injection h with h
    injection h with h1 h2
    injection h2 with h2 h3
    subst h1 h2
    rcases parsePath_wf hp with ⟨h1, h2⟩
    refine ⟨h1, ?_, hq_no_hash⟩
    intro p hpmem c hc
    rcases h2 p hpmem with ⟨hslash, hsub⟩
    have hcb : c ∈ (breakAtCh '?' (breakAtCh '#' l).1).1 := hsub c hc
    rw [urlDelim_eq_false_iff]
    refine ⟨?_, ?_, ?_⟩
    · rintro rfl
      exact hslash hc
    · rintro rfl
      exact breakAtCh_fst_not_mem '?' _ hcb
    · rintro rfl
      exact breakAtCh_fst_not_mem '#' l (breakAtCh_fst_subset hcb)

/-- Well-formedness of the authority/path parser's output, factored out for
reuse by the relative resolver. -/
theorem wf_of_parseAfterScheme {secure : Bool} {r : List Char} {u : Url}
    (h : parseAfterScheme secure r = some u) : u.WF := by
  unfold parseAfterScheme at h
  split at h
  · exact absurd h (by simp)
  next hhost =>
    push_neg at hhost
    split at h
    · exact absurd h (by simp)
    next segs query frag hpqf =>
      injection h with h
      subst h
      rcases parsePQF_wf hpqf with ⟨h1, h2, h3⟩
      exact ⟨hhost.1, hhost.2, h1, h2, h3⟩

theorem wf_of_parseUrlC {l : List Char} {u : Url} (h : parseUrlC l = some u) :
    u.WF := by
  unfold parseUrlC at h
  split at h
  · exact absurd h (by simp)
  · split at h
    · exact absurd h (by simp)
    · split at h
      · exact wf_of_parseAfterScheme h
      · exact absurd h (by simp)

theorem map_fixed {f : Char → Char} {l : List Char}
    (h : ∀ c ∈ l, f c = c) : l.map f = l := by
  induction l with
  | nil => rfl
  | cons a rest ih =>
    simp only [List.map_cons]
    rw [h a (List.mem_cons_self a rest), ih fun c hc => h c (List.mem_cons_of_mem a hc)]

theorem takeWhile_all_append {p : Char → Bool} {a b : List Char} {x : Char}
    (h : ∀ c ∈ a, p c = true) (hx : p x = false) :
    (a ++ x :: b).takeWhile p = a := by
  induction a with
  | nil => simp [List.takeWhile, hx]
  | cons c rest ih =>
    simp only [List.cons_append, List.takeWhile_cons, h c (List.mem_cons_self c rest),
      if_true]
    rw [ih fun d hd => h d (List.mem_cons_of_mem c hd)]

theorem dropWhile_all_append {p : Char → Bool} {a b : List Char} {x : Char}
    (h : ∀ c ∈ a, p c = true) (hx : p x = false) :
    (a ++ x :: b).dropWhile p = x :: b := by
  induction a with
  | nil => simp [List.dropWhile, hx]
  | cons c rest ih =>
    simp only [List.cons_append, List.dropWhile_cons, h c (List.mem_cons_self c rest),
      if_true]
    rw [ih fun d hd => h d (List.mem_cons_of_mem c hd)]

/-- The query part of `serializeUrl`. -/
def queryPart (q : Option (List Char)) : List Char :=
  match q with
  | none => []
  | some q => '?' :: q

/-- The fragment part of `serializeUrl`. -/
def fragPart (f : Option (List Char)) : List Char :=
  match f with
  | none => []
  | some f => '#' :: f

theorem serializeUrl_eq (u : Url) :
    serializeUrl u = schemeChars u.secure ++ ':' :: '/' :: '/' ::
      (u.host ++ '/' :: (joinCh '/' u.segs ++ queryPart u.query ++ fragPart u.frag)) := by
  unfold serializeUrl queryPart fragPart
  rcases u.query with _ | q <;> rcases u.frag with _ | f <;> simp

theorem colon_not_mem_schemeChars (secure : Bool) : ':' ∉ schemeChars secure := by
  cases secure <;> decide

theorem schemeSecure_schemeChars (secure : Bool) :
    schemeSecure (schemeChars secure) = some secure := by
  cases secure <;> decide

/-- Characters of the serialized path/query section (before the fragment
part) of a well-formed URL are never `#`; `?` additionally never occurs
before the query marker.  Stated for the two prefixes the parser splits at. -/
theorem no_hash_in_path_query {u : Url} (h : u.WF) :
    '#' ∉ '/' :: (joinCh '/' u.segs ++ queryPart u.query) := by
  rcases h with ⟨-, -, -, hsegs, hq⟩
  simp only [List.mem_cons, List.mem_append, not_or]
  refine ⟨by decide, ?_, ?_⟩
  · intro hmem
    rcases mem_joinCh hmem with h' | ⟨p, hp, hc⟩
    · exact absurd h' (by decide)
    · have := hsegs p hp '#' hc
      rw [urlDelim_eq_false_iff] at this
      exact this.2.2 rfl
  · rcases hu : u.query with _ | q
    · simp [queryPart]
    · simp only [queryPart, List.mem_cons, not_or]
      exact ⟨by decide, hq q hu⟩

theorem no_qmark_in_path {u : Url} (h : u.WF) :
    '?' ∉ '/' :: joinCh '/' u.segs := by
  rcases h with ⟨-, -, -, hsegs, -⟩
  simp only [List.mem_cons, not_or]
  refine ⟨by decide, ?_⟩
  intro hmem
  rcases mem_joinCh hmem with h' | ⟨p, hp, hc⟩
  · exact absurd h' (by decide)
  · have := hsegs p hp '?' hc
    rw [urlDelim_eq_false_iff] at this
    exact this.2.1 rfl

theorem parsePQF_of_wf {u : Url} (h : u.WF) :
    parsePQF ('/' :: (joinCh '/' u.segs ++ queryPart u.query ++ fragPart u.frag)) =
      some (u.segs, u.query, u.frag) := by
  have hbh : breakAtCh '#' ('/' :: (joinCh '/' u.segs ++ queryPart u.query ++ fragPart u.frag)) =
      ('/' :: (joinCh '/' u.segs ++ queryPart u.query), u.frag) := by
    rcases hf : u.frag with _ | f
    · simp only [fragPart, List.append_nil]
      exact breakAtCh_not_mem (no_hash_in_path_query h)
    · have heq : '/' :: (joinCh '/' u.segs ++ queryPart u.query ++ fragPart (some f)) =
          ('/' :: (joinCh '/' u.segs ++ queryPart u.query)) ++ '#' :: f := by
        simp [fragPart]
      rw [heq, breakAtCh_append (no_hash_in_path_query h)]
  have hbq : breakAtCh '?' ('/' :: (joinCh '/' u.segs ++ queryPart u.query)) =
      ('/' :: joinCh '/' u.segs, u.query) := by
    rcases hq : u.query with _ | q
    · simp only [queryPart, List.append_nil]
      exact breakAtCh_not_mem (no_qmark_in_path h)
    · have heq : '/' :: (joinCh '/' u.segs ++ queryPart (some q)) =
          ('/' :: joinCh '/' u.segs) ++ '?' :: q := by
        simp [queryPart]
      rw [heq, breakAtCh_append (no_qmark_in_path h)]
  unfold parsePQF
  simp only [hbh, hbq]
  rcases hs : u.segs with _ | ⟨s, ss⟩
  · simp [parsePath, joinCh]
  · have hnn : joinCh '/' (s :: ss) ≠ [] := by
      rw [← hs]
      apply joinCh_ne_nil (by rw [hs]; simp)
      exact h.2.2.1
    have hsplit : splitOnCh '/' (joinCh '/' (s :: ss)) = s :: ss := by
      apply splitOnCh_joinCh (by simp)
      intro p hp hmem
      rw [← hs] at hp
      have := h.2.2.2.1 p hp '/' hmem
      rw [urlDelim_eq_false_iff] at this
      exact this.1 rfl
    simp [parsePath, hnn, hsplit]

/-- Round trip: parsing the serialization of a well-formed URL value gives it
back.  This is the model's counterpart of `new URL(u.toString())` being the
identity on normalized URLs. -/
theorem parseUrlC_serializeUrl {u : Url} (h : u.WF) :
    parseUrlC (serializeUrl u) = some u := by
  rw [serializeUrl_eq]
  unfold parseUrlC
  rw [breakAtCh_append (colon_not_mem_schemeChars u.secure)]
  simp only [schemeSecure_schemeChars]
  unfold parseAfterScheme
  have hhostp : ∀ c ∈ u.host, (fun c => !urlDelim c) c = true := by
    intro c hc
    simp only [Bool.not_eq_true']
    exact hostChar_not_urlDelim (by
      have := h.2.1
      rw [List.all_eq_true] at this
      exact this c hc)
  have hslash : (fun c => !urlDelim c) '/' = false := by decide
  rw [takeWhile_all_append hhostp hslash, dropWhile_all_append hhostp hslash]
  rw [map_fixed fun c hc => lowerJS_fixed_of_hostChar (by
    have := h.2.1
    rw [List.all_eq_true] at this
    exact this c hc)]
  have hguard : ¬(u.host = [] ∨ ¬(u.host.all hostChar = true)) := by
    push_neg
    exact ⟨h.1, h.2.1⟩
  rw [if_neg hguard, parsePQF_of_wf h]

/-! ## Relative URL resolution (model of `new URL(rel, base)`) -/

/-- First character of a URI scheme (`[A-Za-z]`). -/
def schemeHeadChar (c : Char) : Bool :=
  decide ((65 ≤ c.toNat ∧ c.toNat ≤ 90) ∨ (97 ≤ c.toNat ∧ c.toNat ≤ 122))

/-- Subsequent characters of a URI scheme (`[A-Za-z0-9+.-]`). -/
def schemeTailChar (c : Char) : Bool :=
  schemeHeadChar c || isDigitChar c || c = '+' || c = '.' || c = '-'

/-- Whether a string begins with a URI scheme followed by `:` (so JS would
treat it as an absolute URL rather than resolve it against the base). -/
def schemePrefixed : List Char → Bool
  | [] => false
  | c :: rest =>
    schemeHeadChar c &&
      (match rest.dropWhile schemeTailChar with
       | ':' :: _ => true
       | _ => false)

/-- Resolve a non-scheme-prefixed reference against a parsed base URL:
empty reference (base minus fragment), fragment-only, query-only,
protocol-relative, path-absolute, and relative-path merge.  Dot segments are
not normalized (model restriction; the pipeline never produces them). -/
def resolveRel (rel : List Char) (base : Url) : Option Url :=
  match rel with
  | [] => some { base with frag := none }
  | c :: rest =>
    if c = '#' then some { base with frag := some rest }
    else if c = '?' then
      some { base with query := some (breakAtCh '#' rest).1, frag := (breakAtCh '#' rest).2 }
    else if c = '/' then
      match rest with
      | '/' :: r => parseAfterScheme base.secure r
      | _ =>
        (parsePQF (c :: rest)).map fun t =>
          { base with segs := t.1, query := t.2.1, frag := t.2.2 }
    else
      some { base with
        segs := base.segs.dropLast ++
          splitOnCh '/' (breakAtCh '?' (breakAtCh '#' (c :: rest)).1).1,
        query := (breakAtCh '?' (breakAtCh '#' (c :: rest)).1).2,
        frag := (breakAtCh '#' (c :: rest)).2 }

/-- Model of `new URL(rel, base)`: the base string is parsed first (JS throws
on an unparseable base); a scheme-prefixed reference is parsed absolutely,
anything else is resolved against the base. -/
def newURL (rel baseStr : List Char) : Option Url :=
  match parseUrlC baseStr with
  | none => none
  | some base => if schemePrefixed rel then parseUrlC rel else resolveRel rel base

theorem wf_of_resolveRel {rel : List Char} {base u : Url}
    (hb : base.WF) (h : resolveRel rel base = some u) : u.WF := by
  rcases hb with ⟨hh1, hh2, hsegs, hdelim, hquery⟩
  unfold resolveRel at h
  split at h
  · injection h with h
    subst h
    exact ⟨hh1, hh2, hsegs, hdelim, fun q hq => hquery q hq⟩
  next c rest =>
    split at h
    · injection h with h
      subst h
      exact ⟨hh1, hh2, hsegs, hdelim, fun q hq => hquery q hq⟩
    · split at h
      · injection h with h
        subst h
        refine ⟨hh1, hh2, hsegs, hdelim, ?_⟩
        intro q hq
        have hq' : some (breakAtCh '#' rest).1 = some q := hq
        injection hq' with hq'
        subst hq'
        exact breakAtCh_fst_not_mem '#' rest
      · split at h
        · split at h
          · exact wf_of_parseAfterScheme h
          · rcases hp : parsePQF (c :: rest) with _ | ⟨segs0, q0, f0⟩
            · rw [hp] at h
              exact absurd h (by simp)
            · rw [hp] at h
              simp only [Option.map_some'] at h
              injection h with h
              subst h
              rcases parsePQF_wf hp with ⟨h1, h2, h3⟩
              exact ⟨hh1, hh2, h1, h2, h3⟩
        next hc1 hc2 hc3 =>
          injection h with h
          subst h
          have hcq : ∀ d ∈ (breakAtCh '?' (breakAtCh '#' (c :: rest)).1).1,
              d ≠ '?' ∧ d ≠ '#' := by
            intro d hd
            constructor
            · rintro rfl
              exact breakAtCh_fst_not_mem '?' _ hd
            · rintro rfl
              exact breakAtCh_fst_not_mem '#' _ (breakAtCh_fst_subset hd)
          refine ⟨hh1, hh2, ?_, ?_, ?_⟩
          · -- the merged segment list is never the unnormalized `[[]]`:
            -- the reference's first path part starts with `c`
            have hfst : (breakAtCh '#' (c :: rest)).1 =
                c :: (breakAtCh '#' rest).1 := by
              simp [breakAtCh, hc1]
            have hfst2 : (breakAtCh '?' (breakAtCh '#' (c :: rest)).1).1 =
                c :: (breakAtCh '?' (breakAtCh '#' rest).1).1 := by
              rw [hfst]
              simp [breakAtCh, hc2]
            rw [hfst2]
            intro hbad
            rcases hsp : splitOnCh '/' (c :: (breakAtCh '?' (breakAtCh '#' rest).1).1)
              with _ | ⟨s0, ss0⟩
            · exact splitOnCh_ne_nil _ _ hsp
            · have hs0 : s0 ∈ splitOnCh '/' (c :: (breakAtCh '?' (breakAtCh '#' rest).1).1) := by
                rw [hsp]
                exact List.mem_cons_self _ _
              rw [hsp] at hbad
              have hlen := congrArg List.length hbad
              simp only [List.length_append, List.length_cons, List.length_singleton] at hlen
              have hdrop : base.segs.dropLast = [] := by
                cases hdl : base.segs.dropLast with
                | nil => rfl
                | cons a as =>
                  rw [hdl] at hlen
                  simp at hlen
                  omega
              rw [hdrop, List.nil_append] at hbad
              -- then the single part would be empty, but it starts with `c`
              have : s0 :: ss0 = [[]] := hbad
              injection this with h1 h2
              -- `s0 = []` contradicts: first part of a split of `c :: _`
              -- starts with `c` unless `c` is the separator
              have hcslash : ¬c = '/' := hc3
              simp only [splitOnCh, if_neg hcslash] at hsp
              rcases hsp2 : splitOnCh '/' (breakAtCh '?' (breakAtCh '#' rest).1).1
                with _ | ⟨t0, ts0⟩
              · exact splitOnCh_ne_nil _ _ hsp2
              · rw [hsp2] at hsp
                injection hsp with hsp _
                rw [h1] at hsp
                exact List.cons_ne_nil c t0 hsp
          · intro p hp d hd
            rcases List.mem_append.mp hp with hp | hp
            · exact hdelim p (List.dropLast_subset _ hp) d hd
            · rcases splitOnCh_parts hp with ⟨hns, hsub⟩
              rcases hcq d (hsub d hd) with ⟨hq', hh'⟩
              rw [urlDelim_eq_false_iff]
              refine ⟨?_, hq', hh'⟩
              rintro rfl
              exact hns hd
          · intro q hq
            have hq' : (breakAtCh '?' (breakAtCh '#' (c :: rest)).1).2 = some q := hq
            intro hmem
            exact breakAtCh_fst_not_mem '#' _ (breakAtCh_snd_subset hq' hmem)

theorem wf_of_newURL {rel baseStr : List Char} {u : Url}
    (h : newURL rel baseStr = some u) : u.WF := by
  unfold newURL at h
  split at h
  · exact absurd h (by simp)
  next base hbase =>
    split at h
    · exact wf_of_parseUrlC h
    · exact wf_of_resolveRel (wf_of_parseUrlC hbase) h

/-! ## HTML entity decoding and URL absolutization
(`extract-url/route.ts` lines 51-68, `flyerDiscover.ts` lines 46-52) -/

/-- `decodeHtmlEntities` of `extract-url/route.ts`: the six chained
`replaceAll` calls, applied in source order (`&amp;` first). -/
def decodeHtmlEntities (l : List Char) : List Char :=
  replaceAllL ('&' :: 'n' :: 'b' :: 's' :: 'p' :: ';' :: []) (' ' :: [])
    (replaceAllL ('&' :: '#' :: '3' :: '9' :: ';' :: []) (Char.ofNat 39 :: [])
      (replaceAllL ('&' :: 'q' :: 'u' :: 'o' :: 't' :: ';' :: []) ('"' :: [])
        (replaceAllL ('&' :: 'g' :: 't' :: ';' :: []) ('>' :: [])
          (replaceAllL ('&' :: 'l' :: 't' :: ';' :: []) ('<' :: [])
            (replaceAllL ('&' :: 'a' :: 'm' :: 'p' :: ';' :: []) ('&' :: []) l)))))

/-- `toAbsUrl` of `extract-url/route.ts`: trim, decode entities, then
`new URL(s, baseUrl).toString()`, with a thrown resolution error mapped to
`null` (`none`). -/
def toAbsUrl (raw : String) (baseUrl : String) : Option String :=
  match newURL (decodeHtmlEntities (trimL raw.data)) baseUrl.data with
  | some u => some (String.mk (serializeUrl u))
  | none => none

/-- `toAbs` of `flyerDiscover.ts`: `new URL(maybeRelative, base).toString()`,
but a thrown resolution error returns the RAW input string unchanged. -/
def toAbs (base : String) (maybeRelative : String) : String :=
  match newURL maybeRelative.data base.data with
  | some u => String.mk (serializeUrl u)
  | none => maybeRelative

/-- Shared shape of `extractMetaImages`, `extractAttrUrls` and
`extractCssUrls` of `extract-url/route.ts`: each regex capture is
absolutized with `toAbsUrl` and pushed only when that succeeds.  The regex
scan itself is abstracted by quantifying over the capture list `captures`
(in document order), which covers every possible HTML input. -/
def extractAttrUrls (captures : List String) (baseUrl : String) : List String :=
  captures.filterMap fun m => toAbsUrl m baseUrl

/-- The href-collection phase of `discoverFlyerCandidates` in
`flyerDiscover.ts`: `extractHrefs(html).map((h) => toAbs(home, h))` with the
`href` regex captures abstracted as `hrefCaptures`. -/
def discoverHrefs (hrefCaptures : List String) (home : String) : List String :=
  hrefCaptures.map fun h => toAbs home h

/-! ## Store identifiers and the per-store URL allowlist
(`extract-url/route.ts` lines 25-43, 115-133) -/

inductive StoreId
  | aoba_oshima
  | life_kawasaki_oshima
  | itoyokado_kawasaki
deriving DecidableEq, Repr

/-- The string value of a `StoreId` (TS union of string literals). -/
def StoreId.str : StoreId → String
  | .aoba_oshima => "aoba_oshima"
  | .life_kawasaki_oshima => "life_kawasaki_oshima"
  | .itoyokado_kawasaki => "itoyokado_kawasaki"

/-- `ALLOWLIST` of `extract-url/route.ts`. -/
def ALLOWLIST : StoreId → List String
  | .aoba_oshima => ["www.bicrise.com", "bicrise.com"]
  | .life_kawasaki_oshima =>
    ["store.lifecorp.jp", "meocloud-image.s3.ap-northeast-1.amazonaws.com",
     "image.tokubai.co.jp"]
  | .itoyokado_kawasaki =>
    ["stores.itoyokado.co.jp", "asp.shufoo.net", "s-cmn.shufoo.net",
     "cmn.shufoo.net", "www.shufoo.net", "ipqcache1.shufoo.net",
     "ipqcache2.shufoo.net"]

/-- `assertAllowedUrl` of `extract-url/route.ts`: parse the URL (throwing
`Invalid url` on failure), reject non-http(s) protocols (vacuous in the
model, whose parser only accepts http/https; kept structurally), and reject
hostnames outside the store's allowlist with a distinguishable error. -/
def assertAllowedUrl (storeId : StoreId) (urlStr : String) : Except String Url :=
  match parseUrlC urlStr.data with
  | none => .error ("Invalid url: " ++ urlStr)
  | some u =>
    if ¬(u.secure = true ∨ u.secure = false) then
      .error ("Only http/https allowed: " ++ urlStr)
    else if (ALLOWLIST storeId).contains (String.mk u.host) then .ok u
    else
      .error ("URL host not allowed for " ++ storeId.str ++ ": " ++ String.mk u.host)

/-- A URL passes the allowlist check. -/
def allowedUrl (storeId : StoreId) (urlStr : String) : Prop :=
  ∃ u, assertAllowedUrl storeId urlStr = Except.ok u

instance (storeId : StoreId) (urlStr : String) :
    Decidable (allowedUrl storeId urlStr) := by
  unfold allowedUrl
  rcases assertAllowedUrl storeId urlStr with e | u
  · exact isFalse (by simp)
  · exact isTrue ⟨u, rfl⟩

/-! ## Shufoo tile URL parsing, expansion and grouping
(`extract-url/route.ts` lines 252-338) -/

/-- JS `Number(...)` on an all-digits capture (exact; the JS double rounding
beyond 2^53 is outside the modelled scope). -/
def digitsToNat (l : List Char) : ℕ :=
  l.foldl (fun n c => n * 10 + (c.toNat - 48)) 0

/-- Non-empty all-digits test (`\d+`). -/
def allDigits (l : List Char) : Bool := !l.isEmpty && l.all isDigitChar

/-- The image extension alternatives `(jpg|jpeg|png|webp)`, matched
case-insensitively. -/
def extMember (e : List Char) : Bool :=
  e.map lowerJS = "jpg".data || e.map lowerJS = "jpeg".data ||
  e.map lowerJS = "png".data || e.map lowerJS = "webp".data

/-- `basename` as computed by `path.slice(path.lastIndexOf('/') + 1)`:
the last path segment (empty for pathname `/`). -/
def basenameOf (u : Url) : List Char := u.segs.getLastD []

/-- `dir` as computed by `path.slice(0, path.length - basename.length)`: the
pathname up to and including its last `/`. -/
def dirOf (u : Url) : List Char :=
  '/' :: (if u.segs.dropLast = [] then []
          else joinCh '/' u.segs.dropLast ++ ('/' :: []))

/-- Matcher for `^(\d+)_(\d+)_(\d+)\.(jpg|jpeg|png|webp)$/i` on a basename:
exactly two underscores separating three digit groups, the third followed by
a final dot and a known extension.  Returns `(page, size, tileIndex)`. -/
def matchTileName3 (b : List Char) : Option (ℕ × ℕ × ℕ) :=
  match splitOnCh '_' b with
  | [a, s, c] =>
    match splitOnCh '.' c with
    | [d, e] =>
      if allDigits a && allDigits s && allDigits d && extMember e then
        some (digitsToNat a, digitsToNat s, digitsToNat d)
      else none
    | _ => none
  | _ => none

/-- Matcher for `^(.*)_([0-9])([0-9])\.(jpg|jpeg|png|webp)$/i` on a
basename: known extension after the last dot, and the stem ends with `_`
followed by exactly two digits (greedy `(.*)` keeps everything before).
Returns `(baseName, row, col)`. -/
def matchTileName2 (b : List Char) : Option (List Char × ℕ × ℕ) :=
  match breakAtCh '.' b.reverse with
  | (_, none) => none
  | (extRev, some stemRev) =>
    match stemRev with
    | d2 :: d1 :: under :: baseRev =>
      if under = '_' && isDigitChar d1 && isDigitChar d2 &&
          extMember extRev.reverse then
        some (baseRev.reverse, d1.toNat - 48, d2.toNat - 48)
      else none
    | _ => none

/-- `ShufooTile` of `extract-url/route.ts`. -/
structure ShufooTile where
  url : String
  row : ℕ
  col : ℕ
  page : Option ℕ
deriving DecidableEq, Repr

/-- `parseShufooTileUrl` of `extract-url/route.ts`: try the three-number
convention first (rejecting tile indices above 3 WITHOUT falling through to
the second convention, as the code does), then the two-digit-suffix
convention.  The grouping key is `origin + dir + page_size` resp.
`origin + dir + baseName`. -/
def parseShufooTileUrl (urlStr : String) : Option (String × ShufooTile) :=
  match parseUrlC urlStr.data with
  | none => none
  | some u =>
    match matchTileName3 (basenameOf u) with
    | some (page, size, tileIndex) =>
      if tileIndex > 3 then none
      else
        some (String.mk (originChars u ++ dirOf u ++ (toString page).data ++
                '_' :: (toString size).data),
              ⟨urlStr, tileIndex / 2, tileIndex % 2, some page⟩)
    | none =>
      match matchTileName2 (basenameOf u) with
      | some (baseName, row, col) =>
        some (String.mk (originChars u ++ dirOf u ++ baseName),
              ⟨urlStr, row, col, none⟩)
      | none => none

/-- One speculative tile URL `` `${base}${p}_${size}_${i}.jpg` `` where
`base = origin + dir`. -/
def mkTileUrl (u : Url) (p size i : ℕ) : String :=
  String.mk (originChars u ++ dirOf u ++ (toString p).data ++
    '_' :: (toString size).data ++ '_' :: (toString i).data ++
    '.' :: 'j' :: 'p' :: 'g' :: [])

/-- `expandShufooTileUrls` of `extract-url/route.ts`: for a URL whose
basename matches the three-number convention (with NO range check on the
tile index), emit the eight speculative URLs `<p>_<size>_<i>.jpg` for
`p ∈ {page, page+1}` and `i ∈ {0,1,2,3}`, in that order, always with the
`.jpg` extension. -/
def expandShufooTileUrls (urlStr : String) : Option (List String) :=
  match parseUrlC urlStr.data with
  | none => none
  | some u =>
    match matchTileName3 (basenameOf u) with
    | none => none
    | some (page, size, _) =>
      some (([page, page + 1]).flatMap fun p =>
        (List.range 4).map fun i => mkTileUrl u p size i)

/-- JS `Map` accumulation step used by `pickShufooTileGroups`: push onto the
list of an existing key (keeping its position) or append a new entry. -/
def addToGroup (m : List (String × List ShufooTile)) (k : String)
    (t : ShufooTile) : List (String × List ShufooTile) :=
  if m.any fun p => p.1 = k then
    m.map fun p => if p.1 = k then (p.1, p.2 ++ [t]) else p
  else m ++ [(k, [t])]

/-- Stable insertion of `x` after every already-placed element `y` with
`le y x` (models the stability of `Array.prototype.sort`). -/
def insertSorted (le : α → α → Bool) (x : α) : List α → List α
  | [] => [x]
  | y :: ys => if le y x then y :: insertSorted le x ys else x :: y :: ys

/-- Stable sort by repeated insertion (left to right). -/
def sortStable (le : α → α → Bool) (l : List α) : List α :=
  l.foldl (fun acc x => insertSorted le x acc) []

/-- Comparator `(a, b) => b.tiles.length - a.tiles.length` (descending tile
count): `a` may precede `b` iff `b`'s count is at most `a`'s. -/
def countDescLe (a b : String × List ShufooTile) : Bool :=
  b.2.length ≤ a.2.length

/-- `a.tiles[0]?.page ?? -1` as an integer sort key. -/
def firstPageKey (g : String × List ShufooTile) : ℤ :=
  match g.2 with
  | [] => -1
  | t :: _ =>
    match t.page with
    | some p => (p : ℤ)
    | none => -1

/-- Comparator `(a, b) => ap - bp` on the first tile's page (ascending). -/
def pageAscLe (a b : String × List ShufooTile) : Bool :=
  firstPageKey a ≤ firstPageKey b

/-- `pickShufooTileGroups` of `extract-url/route.ts`: group parseable tile
URLs by key in first-seen order, keep the groups with at least two members,
sort by descending member count, and (when any remain) re-sort by the first
tile's page number. -/
def shufooTileGroups (urls : List String) : List (String × List ShufooTile) :=
  ((urls.foldl (fun m u =>
      match parseShufooTileUrl u with
      | none => m
      | some (k, t) => addToGroup m k t) []).filter
    fun g => g.2.length ≥ 2)

def pickShufooTileGroups (urls : List String) : List (String × List ShufooTile) :=
  if sortStable countDescLe (shufooTileGroups urls) = [] then []
  else sortStable pageAscLe (sortStable countDescLe (shufooTileGroups urls))

/-! ## Tokubai high-resolution rewrite
(`extract-url/route.ts` lines 230-241, `discover/route.ts` lines 195-206,
`resolve/route.ts` lines 84-98 — three identical copies) -/

/-- Model of JS `String.prototype.includes` (substring containment). -/
def inclL (pat : List Char) : List Char → Bool
  | [] => pat.isEmpty
  | c :: rest => startsWithL pat (c :: rest) || inclL pat rest

/-- Whether the pathname contains `/images/bargain_office_leaflets/`:
consecutive segments `images`, `bargain_office_leaflets` followed by at
least one more segment (which supplies the trailing slash). -/
def leafletIncl : List (List Char) → Bool
  | x :: b :: r :: rest =>
    (x = "images".data && b = "bargain_office_leaflets".data) ||
      leafletIncl (b :: r :: rest)
  | _ => false

/-- First-match replacement of
`/\/images\/bargain_office_leaflets\/[^/]+\//` by
`/images/bargain_office_leaflets/o=true/` at the path-segment level: the
segment after the first `images`/`bargain_office_leaflets` pair becomes
`o=true` when it is non-empty and followed by a further segment (the
regex's trailing slash). -/
def leafletReplace : List (List Char) → List (List Char)
  | x :: b :: seg :: r :: tail =>
    if x = "images".data ∧ b = "bargain_office_leaflets".data ∧ seg ≠ [] then
      x :: b :: "o=true".data :: r :: tail
    else x :: leafletReplace (b :: seg :: r :: tail)
  | x :: rest => x :: leafletReplace rest
  | [] => []

/-- The guarded block `if (u.pathname.includes('/images/bargain_office_leaflets/'))
{ u.pathname = u.pathname.replace(...) }` at the path-segment level. -/
def leafletStep (segs : List (List Char)) : List (List Char) :=
  if leafletIncl segs then leafletReplace segs else segs

/-- `toTokubaiHighRes` (identical in all three routes): unparseable URLs and
non-`tokubai.co.jp` hostnames are returned unchanged; otherwise the leaflet
path segment is rewritten to `o=true` and the URL is re-serialized. -/
def toTokubaiHighRes (urlStr : String) : String :=
  match parseUrlC urlStr.data with
  | none => urlStr
  | some u =>
    if inclL "tokubai.co.jp".data u.host then
      String.mk (serializeUrl { u with segs := leafletStep u.segs })
    else urlStr

/-! ## Flyer items: normalization and de-duplication (`src/app/lib/flyer.ts`) -/

/-- A JSON field value as far as `normalizeFlyerItem` inspects it: a string,
a (finite) number modelled exactly as a rational, `null`, or anything else
(array/object/boolean, where only the `typeof` outcome matters).  JS double
rounding and infinities are outside the modelled scope. -/
inductive JVal where
  | str (s : String)
  | num (q : ℚ)
  | nul
  | other
deriving DecidableEq, Repr

/-- A raw extracted item as an object: the seven fields `normalizeFlyerItem`
reads (`none` = property absent / `undefined`). -/
structure RawItem where
  name : Option JVal := none
  category : Option JVal := none
  unit : Option JVal := none
  notes : Option JVal := none
  priceYen : Option JVal := none
  price : Option JVal := none
  price_yen : Option JVal := none
deriving DecidableEq, Repr

/-- A raw array element: an object or something falsy/non-object (which
`normalizeFlyerItem` rejects up front). -/
inductive RawVal where
  | obj (r : RawItem)
  | nonObj
deriving DecidableEq, Repr

/-- `FlyerItem` of `flyer.ts`.  `priceYen` is a rational because the code
passes numeric JSON fields through without integer coercion. -/
structure FlyerItem where
  category : String
  name : String
  priceYen : ℚ
  unit : Option String
  notes : Option String
deriving DecidableEq, Repr

/-- JS `??` on two optional field values (`null` and `undefined` both fall
through). -/
def jsCoalesce (a b : Option JVal) : Option JVal :=
  match a with
  | none => b
  | some .nul => b
  | some v => some v

/-- JS `trim` on a `String`. -/
def trimS (s : String) : String := String.mk (trimL s.data)

/-- The first maximal digit run of a character list (JS `match(/\d+/)`). -/
def firstDigitRun : List Char → Option (List Char)
  | [] => none
  | c :: rest =>
    if isDigitChar c then some (c :: rest.takeWhile isDigitChar)
    else firstDigitRun rest

/-- `toNumberPrice` of `flyer.ts`: numbers pass through unchanged, strings
are stripped of commas and the first digit run is taken, anything else is
`NaN` (modelled as `none`). -/
def toNumberPrice (v : Option JVal) : Option ℚ :=
  match v with
  | some (.num q) => some q
  | some (.str s) =>
    (firstDigitRun (s.data.filter fun c => !(c = ','))).map
      fun run => (digitsToNat run : ℚ)
  | _ => none

/-- `typeof raw.name === 'string' ? raw.name.trim() : ''`. -/
def rawName (raw : RawItem) : String :=
  match raw.name with
  | some (.str s) => trimS s
  | _ => ""

/-- `typeof raw.category === 'string' && raw.category.trim() ?
raw.category.trim() : 'その他'`. -/
def rawCategory (raw : RawItem) : String :=
  match raw.category with
  | some (.str s) => if trimS s = "" then "その他" else trimS s
  | _ => "その他"

/-- `typeof v === 'string' && v.trim() ? v.trim() : undefined`
(used for `unit` and `notes`). -/
def rawOptField (v : Option JVal) : Option String :=
  match v with
  | some (.str s) => if trimS s = "" then none else some (trimS s)
  | _ => none

/-- `toNumberPrice(raw.priceYen ?? raw.price ?? raw.price_yen)`. -/
def rawPrice (raw : RawItem) : Option ℚ :=
  toNumberPrice (jsCoalesce raw.priceYen (jsCoalesce raw.price raw.price_yen))

/-- `normalizeFlyerItem` of `flyer.ts`. -/
def normalizeFlyerItem : RawVal → Option FlyerItem
  | .nonObj => none
  | .obj raw =>
    if rawName raw = "" then none
    else
      match rawPrice raw with
      | none => none
      | some priceYen =>
        if priceYen ≤ 0 then none
        else
          some ⟨rawCategory raw, rawName raw, priceYen,
            rawOptField raw.unit, rawOptField raw.notes⟩

/-- The `norm` closure of `makeDedupKey` at the character-list level:
lower-case, strip the `\s` class, strip the punctuation class (in that
order, as the code chains them). -/
def normL (l : List Char) : List Char :=
  ((l.map lowerJS).filter fun c => !isWsChar c).filter fun c => !isPunctChar c

/-- The `norm` closure of `makeDedupKey`. -/
def normKey (s : String) : String :=
  String.mk (normL s.data)

/-- JS number-to-string interpolation for the dedup key.  Exact for integral
values; non-integral values use the rational rendering (JS float formatting
outside the modelled scope — no claim compares such keys). -/
def numToStr (q : ℚ) : String :=
  if q.den = 1 then toString q.num else toString q

/-- `makeDedupKey` of `flyer.ts`: `norm(name)|priceYen|norm(unit ?? '')`. -/
def makeDedupKey (it : FlyerItem) : String :=
  normKey it.name ++ "|" ++ numToStr it.priceYen ++ "|" ++
    normKey (it.unit.getD "")

/-- One `map.set(key, value)` step of a JS `Map` kept as an association list
in key-insertion order: an existing key keeps its position but its value is
replaced wholesale; a new key is appended. -/
def jsMapSet (m : List (String × FlyerItem)) (k : String) (v : FlyerItem) :
    List (String × FlyerItem) :=
  if m.any fun p => p.1 = k then
    m.map fun p => if p.1 = k then (p.1, v) else p
  else m ++ [(k, v)]

/-- The dedup accumulation of `POST` (`for (const it of allItems)
map.set(makeDedupKey(it), it)`). -/
def dedupByKey (items : List FlyerItem) : List (String × FlyerItem) :=
  items.foldl (fun m it => jsMapSet m (makeDedupKey it) it) []

/-- `Array.from(map.values())`. -/
def dedupItems (items : List FlyerItem) : List FlyerItem :=
  (dedupByKey items).map fun p => p.2

/-- Association-list lookup (JS `map.get`). -/
def mapLookup (k : String) : List (String × FlyerItem) → Option FlyerItem
  | [] => none
  | p :: rest => if p.1 = k then some p.2 else mapLookup k rest

/-! ## Batch extraction orchestrator
(`extract-url/route.ts` lines 727-749, `extract/route.ts` lines 216-237) -/

/-- The warning string appended when a tile fails
(`JSON parse failed (tile i/n). raw head: ...`, error excerpt truncated to
200 characters). -/
def tileWarning (i n : ℕ) (e : String) : String :=
  "JSON parse failed (tile " ++ toString i ++ "/" ++ toString n ++
    "). raw head: " ++ e.take 200

/-- The per-tile sequential loop of `POST`: `oracle i` abstracts the whole
`callGeminiForTile` call for tile `i` (network + JSON parsing + the
`items` array extraction) — `.ok itemsRaw` is its raw item list, `.error e`
is the thrown error's message.  A failing tile appends one warning and the
loop continues; a successful tile appends its normalized items. -/
def runExtractLoop (oracle : ℕ → Except String (List RawVal)) (tileCount : ℕ) :
    List FlyerItem × List String :=
  (List.range tileCount).foldl
    (fun acc i =>
      match oracle i with
      | .ok itemsRaw => (acc.1 ++ itemsRaw.filterMap normalizeFlyerItem, acc.2)
      | .error e => (acc.1, acc.2 ++ [tileWarning (i + 1) tileCount e]))
    ([], [])

/-! ## Network events

To check the ordering claim "allowlist validation happens before every
asset fetch", the functions that fetch are modelled as also emitting an
event trace: `validated` when `assertAllowedUrl` succeeds, `fetched` when
the code reaches a `fetch` call for that URL. -/

inductive NetEvent where
  | validated (storeId : StoreId) (url : String)
  | fetched (url : String)
deriving DecidableEq, Repr

/-- Outcome of `fetchBuffer` + `sharp(...).png()` + `metadata()` for one
tile: a thrown error (network failure, decode failure, over-size) or the
decoded pixel dimensions (`meta.width ?? 0` / `meta.height ?? 0`). -/
inductive FetchOutcome where
  | fail (msg : String)
  | ok (width height : ℕ)
deriving DecidableEq, Repr

/-- One entry of the `entries` array in `composeShufooTiles`
(the decoded buffer itself is abstracted away). -/
structure TileEntry where
  row : ℕ
  col : ℕ
  width : ℕ
  height : ℕ
deriving DecidableEq, Repr

/-! ## Tile compositing (`composeShufooTiles`, `extract-url/route.ts`
lines 340-387) -/

/-- The per-tile loop of `composeShufooTiles`: validate against the
allowlist (an exception aborts the whole loop — there is no try/catch inside
`composeShufooTiles`), fetch (a thrown fetch/decode error likewise aborts),
skip entries with a zero dimension, keep the rest in order. -/
def composeLoop (storeId : StoreId) :
    List (ShufooTile × FetchOutcome) → Except String (List TileEntry) × List NetEvent
  | [] => (.ok [], [])
  | (t, out) :: rest =>
    match assertAllowedUrl storeId t.url with
    | .error e => (.error e, [])
    | .ok _ =>
      match out with
      | .fail msg => (.error msg, [.validated storeId t.url, .fetched t.url])
      | .ok w h =>
        match composeLoop storeId rest with
        | (.error e, evs) =>
          (.error e, .validated storeId t.url :: .fetched t.url :: evs)
        | (.ok entries, evs) =>
          (.ok (if w = 0 || h = 0 then entries else ⟨t.row, t.col, w, h⟩ :: entries),
           .validated storeId t.url :: .fetched t.url :: evs)

/-- Minimum of a list of naturals (`Math.min(...)` over a non-empty array;
`0` for the unreachable empty case). -/
def minL : List ℕ → ℕ
  | [] => 0
  | x :: xs => xs.foldl min x

/-- Maximum of a list of naturals. -/
def maxL : List ℕ → ℕ
  | [] => 0
  | x :: xs => xs.foldl max x

/-- The composited canvas: size, white background (`r,g,b,alpha`), and the
paste position of every entry. -/
structure Composite where
  width : ℕ
  height : ℕ
  background : ℕ × ℕ × ℕ × ℕ
  pastes : List (TileEntry × ℕ × ℕ)
deriving DecidableEq, Repr

/-- The compositing step of `composeShufooTiles` on the surviving entries:
give up with `null` when fewer than two entries survive, otherwise
composite on a white canvas sized by the row/col span times the FIRST
entry's dimensions, pasting each entry at
`((col-minCol)*tileWidth, (row-minRow)*tileHeight)`. -/
def composeResult (r : Except String (List TileEntry)) :
    Except String (Option Composite) :=
  match r with
  | .error e => .error e
  | .ok entries =>
    if entries.length < 2 then .ok none
    else
      match entries with
      | [] => .ok none  -- unreachable: length ≥ 2
      | e0 :: _ =>
        .ok (some
          { width := (maxL (entries.map fun e => e.col) -
              minL (entries.map fun e => e.col) + 1) * e0.width
            height := (maxL (entries.map fun e => e.row) -
              minL (entries.map fun e => e.row) + 1) * e0.height
            background := (255, 255, 255, 1)
            pastes := entries.map fun e =>
              (e, (e.col - minL (entries.map fun e => e.col)) * e0.width,
                (e.row - minL (entries.map fun e => e.row)) * e0.height) })

/-- `composeShufooTiles`: the fetch loop (errors propagate to the caller)
followed by compositing, with the loop's event trace. -/
def composeShufooTiles (storeId : StoreId)
    (tiles : List (ShufooTile × FetchOutcome)) :
    Except String (Option Composite) × List NetEvent :=
  (composeResult (composeLoop storeId tiles).1, (composeLoop storeId tiles).2)

/-! ## The asset download loop of `POST`
(`extract-url/route.ts` lines 671-690) -/

/-- Outcome of `fetchBuffer` + PDF/image branch for a direct asset URL. -/
inductive DownloadOutcome where
  | fail (msg : String)
  | okPdf (pages : ℕ)
  | okImage
deriving DecidableEq, Repr

/-- The per-URL download loop: URLs consumed by stitching are skipped;
every other URL is validated (a failure is caught as a warning, with no
fetch) and then fetched; PDFs contribute their page count (zero pages adds
a warning), images contribute one page.  Returns
`(pageCount, warnings, events)`. -/
def fetchNormalizeLoop (storeId : StoreId) (stitched : List String) :
    List (String × DownloadOutcome) → ℕ × List String × List NetEvent
  | [] => (0, [], [])
  | (urlStr, out) :: rest =>
    let r := fetchNormalizeLoop storeId stitched rest
    if stitched.contains urlStr then r
    else
      match assertAllowedUrl storeId urlStr with
      | .error e =>
        (r.1, ("fetch/normalize failed: " ++ urlStr ++ " :: " ++ e) :: r.2.1, r.2.2)
      | .ok _ =>
        match out with
        | .fail msg =>
          (r.1, ("fetch/normalize failed: " ++ urlStr ++ " :: " ++ msg) :: r.2.1,
           .validated storeId urlStr :: .fetched urlStr :: r.2.2)
        | .okPdf pages =>
          (pages + r.1,
           (if pages = 0 then ["PDF had 0 pages after convert: " ++ urlStr] else []) ++ r.2.1,
           .validated storeId urlStr :: .fetched urlStr :: r.2.2)
        | .okImage =>
          (1 + r.1, r.2.1, .validated storeId urlStr :: .fetched urlStr :: r.2.2)

/-! ## The resolver route's size probe (`contentLength`,
`resolve/route.ts` lines 117-164) — note: the resolve route has NO allowlist
at all; `contentLength` fetches the given URL directly. -/

/-- The two response headers `contentLength` reads. -/
structure ProbeHeaders where
  contentLen : Option String
  contentRange : Option String
deriving DecidableEq, Repr

/-- JS `Number(header) || 0` on a header value (digit strings exact,
anything else 0; the headers in scope are decimal byte counts). -/
def parseNumHeader (s : String) : ℕ :=
  if allDigits s.data then digitsToNat s.data else 0

/-- The `/\/(\d+)$/` capture of a `content-range` header: the trailing
digit run, when preceded by `/`. -/
def parseContentRange (s : String) : Option ℕ :=
  match s.data.reverse.takeWhile isDigitChar, s.data.reverse.dropWhile isDigitChar with
  | digitsRev, '/' :: _ =>
    if digitsRev.isEmpty then none else some (digitsToNat digitsRev.reverse)
  | _, _ => none

/-- The HEAD try of `contentLength`: `content-length` if present and
non-empty, else the `content-range` total if it matches. -/
def headPhase (hh : ProbeHeaders) : Option ℕ :=
  match hh.contentLen with
  | some cl =>
    if cl = "" then
      match hh.contentRange with
      | some cr => parseContentRange cr
      | none => none
    else some (parseNumHeader cl)
  | none =>
    match hh.contentRange with
    | some cr => parseContentRange cr
    | none => none

/-- The ranged-GET try of `contentLength`: `content-range` total first,
then `content-length`, else 0. -/
def getPhase (gh : ProbeHeaders) : ℕ :=
  match gh.contentRange with
  | some cr =>
    match parseContentRange cr with
    | some n => n
    | none =>
      match gh.contentLen with
      | some cl => if cl = "" then 0 else parseNumHeader cl
      | none => 0
  | none =>
    match gh.contentLen with
    | some cl => if cl = "" then 0 else parseNumHeader cl
    | none => 0

/-- `contentLength` of `resolve/route.ts`: a HEAD fetch (throwing = `none`
response, swallowed), falling back to a 1-byte ranged GET fetch, defaulting
to size 0.  BOTH fetches are issued WITHOUT any allowlist validation — the
resolve route defines none. -/
def contentLength (url : String) (head get : Option ProbeHeaders) :
    ℕ × List NetEvent :=
  match head with
  | some hh =>
    match headPhase hh with
    | some n => (n, [.fetched url])
    | none =>
      match get with
      | none => (0, [.fetched url, .fetched url])
      | some gh => (getPhase gh, [.fetched url, .fetched url])
  | none =>
    match get with
    | none => (0, [.fetched url, .fetched url])
    | some gh => (getPhase gh, [.fetched url, .fetched url])

/-- The probe loop of the resolve route's `POST`
(lines 353-360): `checkN = Math.min(imgCandidates.length, 50)` candidates
are probed sequentially via `contentLength`.  `responses` abstracts the
network's answers per URL. -/
def resolveProbe (imgCandidates : List String)
    (responses : String → Option ProbeHeaders × Option ProbeHeaders) :
    List (String × ℕ) × List NetEvent :=
  ((imgCandidates.take (min imgCandidates.length 50)).map fun url =>
      ((url, (contentLength url (responses url).1 (responses url).2).1),
        (contentLength url (responses url).1 (responses url).2).2)).foldr
    (fun x acc => (x.1 :: acc.1, x.2 ++ acc.2)) ([], [])

/-- Traces made of `[validated u, fetched u]` blocks for allowlisted URLs:
the shape of every trace the extract-url route's fetch loops emit.  A trace
of this shape validates each URL (successfully) strictly before fetching
it. -/
inductive Paired (storeId : StoreId) : List NetEvent → Prop
  | nil : Paired storeId []
  | cons (u : String) (rest : List NetEvent) (h : allowedUrl storeId u)
      (hp : Paired storeId rest) :
      Paired storeId
        (NetEvent.validated storeId u :: NetEvent.fetched u :: rest)

/-! ## Tiling engine (`tileImagePng`, `extract-url/route.ts` lines 472-508,
`extract/route.ts` lines 65-101) -/

/-- The successive values of `for (v = 0; v < bound; v += step)`
(requires `step ≥ 1`, which `Math.max(1, ...)` guarantees). -/
def loopStops (bound step : ℕ) : List ℕ :=
  List.range' 0 ((bound + step - 1) / step) step

/-- One crop rectangle (`sharp().extract({ left, top, width, height })`);
the pixel payload is abstracted away. -/
structure Rect where
  left : ℕ
  top : ℕ
  width : ℕ
  height : ℕ
deriving DecidableEq, Repr

/-- `tileImagePng`: zero-dimension bitmaps yield no tiles; otherwise the
window slides with `step = Math.max(1, tileSize - overlap)` over rows then
columns (row-major), each tile clamped to the bitmap (`Math.min`), and the
loop returns as soon as `maxTilesTotal` tiles are collected — the
post-push check means even `maxTilesTotal = 0` yields one tile, hence
`max 1`.  `tileIndexInPage` is the position in the returned list. -/
def tileImagePng (w h : ℕ) (tileSize overlap maxTilesTotal : ℕ) : List Rect :=
  if w = 0 || h = 0 then []
  else
    ((loopStops h (max 1 (tileSize - overlap))).flatMap fun top =>
      (loopStops w (max 1 (tileSize - overlap))).map fun left =>
        ⟨left, top, min tileSize (w - left), min tileSize (h - top)⟩).take
      (max 1 maxTilesTotal)

/-! # Supporting lemmas and claim theorems -/

theorem mem_loopStops {bound step x : ℕ} (hs : 1 ≤ step) :
    x ∈ loopStops bound step ↔ ∃ i, x = step * i ∧ x < bound := by
  unfold loopStops
  rw [List.mem_range']
  constructor
  · rintro ⟨i, hi, rfl⟩
    rw [Nat.lt_iff_add_one_le, Nat.le_div_iff_mul_le hs] at hi
    have hmul : (i + 1) * step = step * i + step := by ring
    exact ⟨i, by omega, by omega⟩
  · rintro ⟨i, rfl, hx⟩
    refine ⟨i, ?_, by omega⟩
    rw [Nat.lt_iff_add_one_le, Nat.le_div_iff_mul_le hs]
    have hmul : (i + 1) * step = step * i + step := by ring
    omega

/-- C5: For every page bitmap of positive width `w` and height `h`, tiling
with window size 1024 and overlap 96 produces tiles whose origins are
multiples of the 928-pixel step in each dimension, each tile is clamped to
the bitmap (`width = min 1024 (w - left)`, both dimensions at most 1024 and
positive) and never extends past the bitmap; a 2000×1500 bitmap yields
exactly the six row-major tiles with origins at multiples of 928 and the
last tile in each dimension clipped. -/
theorem c5_tiling :
    (∀ w h m r, 0 < w → 0 < h → r ∈ tileImagePng w h 1024 96 m →
      (∃ i, r.left = 928 * i) ∧ (∃ j, r.top = 928 * j) ∧
      r.width = min 1024 (w - r.left) ∧ r.height = min 1024 (h - r.top) ∧
      r.width ≤ 1024 ∧ r.height ≤ 1024 ∧ 0 < r.width ∧ 0 < r.height ∧
      r.left + r.width ≤ w ∧ r.top + r.height ≤ h) ∧
    tileImagePng 2000 1500 1024 96 200 =
      [⟨0, 0, 1024, 1024⟩, ⟨928, 0, 1024, 1024⟩, ⟨1856, 0, 144, 1024⟩,
       ⟨0, 928, 1024, 572⟩, ⟨928, 928, 1024, 572⟩, ⟨1856, 928, 144, 572⟩] := by
  constructor
  · intro w h m r hw hh hr
    unfold tileImagePng at hr
    rw [if_neg (by simp; omega)] at hr
    have hr' := List.mem_of_mem_take hr
    rw [List.mem_flatMap] at hr'
    obtain ⟨top, htop, hr'⟩ := hr'
    rw [List.mem_map] at hr'
    obtain ⟨left, hleft, rfl⟩ := hr'
    have hstep : max 1 (1024 - 96) = 928 := by norm_num
    rw [hstep] at htop hleft
    rw [mem_loopStops (by omega)] at htop hleft
    obtain ⟨j, rfl, hjlt⟩ := htop
    obtain ⟨i, rfl, hilt⟩ := hleft
    refine ⟨⟨i, rfl⟩, ⟨j, rfl⟩, rfl, rfl, ?_, ?_, ?_, ?_, ?_, ?_⟩ <;> simp <;> omega
  · rfl

/-- Witness for `c5_tiling`: the clipped bottom-right tile of the 2000×1500
example satisfies the universal bounds. -/
theorem c5_tiling_witness :
    (∃ i, (1856 : ℕ) = 928 * i) ∧ (∃ j, (928 : ℕ) = 928 * j) ∧
    (144 : ℕ) = min 1024 (2000 - 1856) ∧ (572 : ℕ) = min 1024 (1500 - 928) ∧
    (144 : ℕ) ≤ 1024 ∧ (572 : ℕ) ≤ 1024 ∧ (0 : ℕ) < 144 ∧ (0 : ℕ) < 572 ∧
    (1856 : ℕ) + 144 ≤ 2000 ∧ (928 : ℕ) + 572 ≤ 1500 :=
  c5_tiling.1 2000 1500 200 ⟨1856, 928, 144, 572⟩ (by decide) (by decide)
    (by rw [c5_tiling.2]; decide)

theorem extractFoldAux (oracle : ℕ → Except String (List RawVal)) (n : ℕ) :
    ∀ (l : List ℕ) (acc : List FlyerItem × List String),
      l.foldl
        (fun acc i =>
          match oracle i with
          | .ok itemsRaw => (acc.1 ++ itemsRaw.filterMap normalizeFlyerItem, acc.2)
          | .error e => (acc.1, acc.2 ++ [tileWarning (i + 1) n e]))
        acc =
      (acc.1 ++ l.flatMap fun i =>
         match oracle i with
         | .ok itemsRaw => itemsRaw.filterMap normalizeFlyerItem
         | .error _ => [],
       acc.2 ++ l.filterMap fun i =>
         match oracle i with
         | .ok _ => none
         | .error e => some (tileWarning (i + 1) n e))
  | [], acc => by simp
  | i :: t, acc => by
    simp only [List.foldl_cons, List.flatMap_cons, List.filterMap_cons]
    rcases horacle : oracle i with e | itemsRaw <;>
      simp only [horacle] <;>
      rw [extractFoldAux oracle n t] <;>
      simp

/-- The loop of `POST` step 3 visits every tile in order: items accumulate
from exactly the successful tiles, and exactly one warning (with the 1-based
tile index and the error excerpt) is appended per failing tile. -/
theorem runExtractLoop_eq (oracle : ℕ → Except String (List RawVal)) (n : ℕ) :
    runExtractLoop oracle n =
      ((List.range n).flatMap fun i =>
         match oracle i with
         | .ok itemsRaw => itemsRaw.filterMap normalizeFlyerItem
         | .error _ => [],
       (List.range n).filterMap fun i =>
         match oracle i with
         | .ok _ => none
         | .error e => some (tileWarning (i + 1) n e)) := by
  unfold runExtractLoop
  rw [extractFoldAux oracle n]
  simp

set_option maxRecDepth 8000 in
/-- C4: a single-tile failure appends exactly one warning carrying that
tile's 1-based index and a truncated error excerpt, and the loop continues:
the items and warnings of the batch are exactly the per-tile concatenation
over `range n` (first conjunct); in the concrete 5-tile batch where tile 3
raises, the warnings list is exactly the one entry referencing tile 3 and
the items of tiles 1, 2, 4, 5 all appear, also after deduplication (second
and third conjuncts).  The error excerpt is truncated to 200 characters
(final conjunct). -/
theorem c4_batch_isolation :
    (∀ (oracle : ℕ → Except String (List RawVal)) (n : ℕ),
      runExtractLoop oracle n =
        ((List.range n).flatMap fun i =>
           match oracle i with
           | .ok itemsRaw => itemsRaw.filterMap normalizeFlyerItem
           | .error _ => [],
         (List.range n).filterMap fun i =>
           match oracle i with
           | .ok _ => none
           | .error e => some (tileWarning (i + 1) n e))) ∧
    runExtractLoop
      (fun i =>
        if i = 2 then Except.error "boom"
        else Except.ok [RawVal.obj { name := some (JVal.str ("item" ++ toString (i + 1))),
                                     priceYen := some (JVal.num 10) }]) 5 =
      ([⟨"その他", "item1", 10, none, none⟩, ⟨"その他", "item2", 10, none, none⟩,
        ⟨"その他", "item4", 10, none, none⟩, ⟨"その他", "item5", 10, none, none⟩],
       ["JSON parse failed (tile 3/5). raw head: boom"]) ∧
    dedupItems
      [⟨"その他", "item1", 10, none, none⟩, ⟨"その他", "item2", 10, none, none⟩,
       ⟨"その他", "item4", 10, none, none⟩, ⟨"その他", "item5", 10, none, none⟩] =
      [⟨"その他", "item1", 10, none, none⟩, ⟨"その他", "item2", 10, none, none⟩,
       ⟨"その他", "item4", 10, none, none⟩, ⟨"その他", "item5", 10, none, none⟩] ∧
    (∀ i n e, tileWarning i n e =
      "JSON parse failed (tile " ++ toString i ++ "/" ++ toString n ++
        "). raw head: " ++ e.take 200) :=
  ⟨runExtractLoop_eq, by rfl, by rfl, fun _ _ _ => rfl⟩

/-- C3 counterexample: the claim says a FlyerItem is returned "only if the
coerced price is a finite positive integer", but `toNumberPrice` passes a
NUMERIC price field through unchanged, so the finite positive non-integer
3.5 survives normalization: the item is returned with the non-integral
`priceYen = 7/2`. -/
theorem c3_counterexample :
    normalizeFlyerItem (RawVal.obj
      { name := some (JVal.str "x"), priceYen := some (JVal.num (mkRat 7 2)) }) =
      some ⟨"その他", "x", mkRat 7 2, none, none⟩ ∧
    (mkRat 7 2).den ≠ 1 := by
  constructor
  · rfl
  · decide

/-- C3 (amended): `normalizeFlyerItem` returns an item only if the trimmed
name is non-empty (and equal to the item's name) and the coerced price is
finite and positive; a STRING price field always coerces to a non-negative
integer (so `"1,280円(税込)"` yields the integer 1280), while a numeric
field passes through unchanged (possibly non-integral, cf. the
counterexample); a price that fails to coerce, or is zero or negative, drops
the item (`none`, never an exception); and a missing, non-string or blank
category defaults to the sentinel `その他`. -/
theorem c3_normalize_flyer_item :
    (∀ (r : RawItem) (it : FlyerItem), normalizeFlyerItem (.obj r) = some it →
      (∃ s, r.name = some (JVal.str s) ∧ trimS s ≠ "" ∧ it.name = trimS s) ∧
      0 < it.priceYen ∧ rawPrice r = some it.priceYen) ∧
    (∀ s q, toNumberPrice (some (JVal.str s)) = some q → q.den = 1 ∧ 0 ≤ q) ∧
    normalizeFlyerItem (RawVal.obj
      { name := some (JVal.str "商品"), priceYen := some (JVal.str "1,280円(税込)") }) =
      some ⟨"その他", "商品", 1280, none, none⟩ ∧
    (∀ (r : RawItem) (q : ℚ), rawPrice r = some q → q ≤ 0 →
      normalizeFlyerItem (.obj r) = none) ∧
    (∀ (r : RawItem), rawPrice r = none → normalizeFlyerItem (.obj r) = none) ∧
    (∀ (r : RawItem) (it : FlyerItem), normalizeFlyerItem (.obj r) = some it →
      (∀ s, r.category = some (JVal.str s) → trimS s = "") →
      it.category = "その他") := by
  refine ⟨?_, ?_, ?_, ?_, ?_, ?_⟩
  · intro r it h
    simp only [normalizeFlyerItem] at h
    split at h
    · exact absurd h (by simp)
    next hname =>
      split at h
      · exact absurd h (by simp)
      next priceYen hprice =>
        split at h
        · exact absurd h (by simp)
        next hpos =>
          injection h with h
          subst h
          push_neg at hpos
          refine ⟨?_, hpos, hprice⟩
          unfold rawName at hname ⊢
          rcases hn : r.name with _ | jv
          · rw [hn] at hname
            simp at hname
          · cases jv with
            | str s =>
              rw [hn] at hname
              exact ⟨s, rfl, hname, rfl⟩
            | num q =>
              rw [hn] at hname
              simp at hname
            | nul =>
              rw [hn] at hname
              simp at hname
            | other =>
              rw [hn] at hname
              simp at hname
  · intro s q h
    have h' : Option.map (fun run => ((digitsToNat run : ℕ) : ℚ))
        (firstDigitRun (s.data.filter fun c => !(c = ','))) = some q := h
    rcases hrun : firstDigitRun (s.data.filter fun c => !(c = ',')) with _ | run
    · rw [hrun] at h'
      exact absurd h' (by simp)
    · rw [hrun] at h'
      simp only [Option.map_some'] at h'
      injection h' with h'
      subst h'
      exact ⟨Rat.den_natCast _, Nat.cast_nonneg _⟩
  · decide
  · intro r q hq hle
    simp only [normalizeFlyerItem]
    split
    · rfl
    · rw [hq]
      simp only
      rw [if_pos hle]
  · intro r hq
    simp only [normalizeFlyerItem]
    split
    · rfl
    · rw [hq]
  · intro r it h hcat
    simp only [normalizeFlyerItem] at h
    split at h
    · exact absurd h (by simp)
    · split at h
      · exact absurd h (by simp)
      · split at h
        · exact absurd h (by simp)
        · injection h with h
          subst h
          simp only
          unfold rawCategory
          rcases hc : r.category with _ | jv
          · rfl
          · cases jv with
            | str s =>
              have := hcat s hc
              simp [this]
            | num q => rfl
            | nul => rfl
            | other => rfl

/-- Witness for `c3_normalize_flyer_item` at the `1,280円(税込)` example and
at a zero price. -/
theorem c3_normalize_flyer_item_witness :
    ((∃ s, ({ name := some (JVal.str "商品"),
              priceYen := some (JVal.str "1,280円(税込)") } : RawItem).name =
        some (JVal.str s) ∧ trimS s ≠ "" ∧ ("商品" : String) = trimS s) ∧
      (0 : ℚ) < 1280 ∧
      rawPrice { name := some (JVal.str "商品"),
                 priceYen := some (JVal.str "1,280円(税込)") } = some 1280) ∧
    normalizeFlyerItem (RawVal.obj
      { name := some (JVal.str "x"), priceYen := some (JVal.num 0) }) = none :=
  ⟨c3_normalize_flyer_item.1
      { name := some (JVal.str "商品"), priceYen := some (JVal.str "1,280円(税込)") }
      ⟨"その他", "商品", 1280, none, none⟩ (by rfl),
   c3_normalize_flyer_item.2.2.2.1
      { name := some (JVal.str "x"), priceYen := some (JVal.num 0) } 0
      (by rfl) (by norm_num)⟩

theorem isWsChar_eq_false_of_punct {c : Char} (h : isPunctChar c = true) :
    isWsChar c = false := by
  rw [isPunctChar, decide_eq_true_eq] at h
  rw [isWsChar, decide_eq_false_iff_not]
  omega

theorem normL_append (l1 l2 : List Char) :
    normL (l1 ++ l2) = normL l1 ++ normL l2 := by
  simp [normL]

/-- A whitespace or stripped-punctuation character disappears under
`norm`. -/
theorem normL_cons_drop {c : Char} {l : List Char}
    (hc : isWsChar c = true ∨ isPunctChar c = true) :
    normL (c :: l) = normL l := by
  unfold normL
  simp only [List.map_cons, List.filter_cons]
  rcases hc with hw | hp
  · rw [isWsChar_lowerJS, hw]
    simp
  · rw [isWsChar_lowerJS, isWsChar_eq_false_of_punct hp]
    simp only [Bool.not_false, if_true]
    rw [List.filter_cons, isPunctChar_lowerJS, hp]
    simp

theorem normL_insert {l1 l2 : List Char} {c : Char}
    (hc : isWsChar c = true ∨ isPunctChar c = true) :
    normL (l1 ++ c :: l2) = normL (l1 ++ l2) := by
  rw [normL_append, normL_append, normL_cons_drop hc]

theorem normL_map_lower (l : List Char) : normL (l.map lowerJS) = normL l := by
  unfold normL
  rw [List.map_map]
  have hmap : l.map (lowerJS ∘ lowerJS) = l.map lowerJS :=
    List.map_congr_left fun a _ => lowerJS_idem a
  rw [hmap]

theorem mapLookup_replace_of_any {m : List (String × FlyerItem)} {k : String}
    {v : FlyerItem} (hany : (m.any fun p => p.1 = k) = true) :
    mapLookup k (m.map fun p => if p.1 = k then (p.1, v) else p) = some v := by
  induction m with
  | nil => simp at hany
  | cons p rest ih =>
    simp only [List.map_cons, mapLookup]
    by_cases hp : p.1 = k
    · simp [mapLookup, hp]
    · rw [if_neg hp]
      simp only [mapLookup, if_neg hp]
      apply ih
      simp only [List.any_cons, Bool.or_eq_true, decide_eq_true_eq] at hany
      rcases hany with hany | hany
      · exact absurd hany hp
      · exact hany

theorem mapLookup_append_self {m : List (String × FlyerItem)} {k : String}
    {v : FlyerItem} (hnone : (m.any fun p => p.1 = k) = false) :
    mapLookup k (m ++ [(k, v)]) = some v := by
  induction m with
  | nil => simp [mapLookup]
  | cons p rest ih =>
    simp only [List.any_cons, Bool.or_eq_false_iff, decide_eq_false_iff_not] at hnone
    simp only [List.cons_append, mapLookup, if_neg hnone.1]
    exact ih hnone.2

theorem mapLookup_replace_other {k' k : String} {v : FlyerItem} (hne : k' ≠ k)
    (m : List (String × FlyerItem)) :
    mapLookup k' (m.map fun p => if p.1 = k then (p.1, v) else p) =
      mapLookup k' m := by
  induction m with
  | nil => simp
  | cons p rest ih =>
    simp only [List.map_cons, mapLookup]
    by_cases hpk : p.1 = k
    · rw [if_pos hpk]
      simp only [mapLookup]
      have hnk : ¬p.1 = k' := by
        rw [hpk]
        exact fun h => hne h.symm
      rw [if_neg hnk, if_neg hnk]
      exact ih
    · rw [if_neg hpk]
      split
      · rfl
      · exact ih

theorem mapLookup_append_other {k' k : String} {v : FlyerItem} (hne : k' ≠ k)
    (m : List (String × FlyerItem)) :
    mapLookup k' (m ++ [(k, v)]) = mapLookup k' m := by
  induction m with
  | nil =>
    simp only [List.nil_append, mapLookup]
    rw [if_neg fun h => hne h.symm]
  | cons p rest ih =>
    simp only [List.cons_append, mapLookup]
    split
    · rfl
    · exact ih

theorem mapLookup_jsMapSet_self (m : List (String × FlyerItem)) (k : String)
    (v : FlyerItem) : mapLookup k (jsMapSet m k v) = some v := by
  unfold jsMapSet
  split
  next hany => exact mapLookup_replace_of_any hany
  next hany => exact mapLookup_append_self (Bool.eq_false_iff.mpr hany)

theorem mapLookup_jsMapSet_other {k' k : String} (hne : k' ≠ k)
    (m : List (String × FlyerItem)) (v : FlyerItem) :
    mapLookup k' (jsMapSet m k v) = mapLookup k' m := by
  unfold jsMapSet
  split
  · exact mapLookup_replace_other hne m
  · exact mapLookup_append_other hne m

theorem dedupFoldAux (k : String) :
    ∀ (items : List FlyerItem) (m : List (String × FlyerItem)),
      mapLookup k (items.foldl (fun m it => jsMapSet m (makeDedupKey it) it) m) =
        (match (items.filter fun it => makeDedupKey it = k).getLast? with
         | some v => some v
         | none => mapLookup k m)
  | [], m => by simp
  | it :: rest, m => by
    simp only [List.foldl_cons]
    rw [dedupFoldAux k rest]
    by_cases hit : makeDedupKey it = k
    · rw [List.filter_cons_of_pos (by simp [hit])]
      rcases hrf : rest.filter (fun it => makeDedupKey it = k) with _ | ⟨a, l⟩
      · simp only [hrf, List.getLast?_nil, List.getLast?_singleton]
        rw [← hit, mapLookup_jsMapSet_self]
      · rw [List.getLast?_cons_cons]
        rcases hgl : (a :: l).getLast? with _ | x
        · simp at hgl
        · rfl
    · rw [List.filter_cons_of_neg (by simp [hit])]
      rcases hrf : rest.filter (fun it => makeDedupKey it = k) with _ | ⟨a, l⟩
      · simp only [List.getLast?_nil]
        exact mapLookup_jsMapSet_other (fun h => hit h.symm) m it
      · rfl

/-- The final dedup map holds, for each key, exactly the LAST accumulated
item with that key (complete overwrite, not a merge). -/
theorem mapLookup_dedupByKey (items : List FlyerItem) (k : String) :
    mapLookup k (dedupByKey items) =
      (items.filter fun it => makeDedupKey it = k).getLast? := by
  unfold dedupByKey
  rw [dedupFoldAux k items]
  rcases (items.filter fun it => makeDedupKey it = k).getLast? with _ | v <;> rfl

/-- C2: the dedup key is a function solely of the normalized
`(name, priceYen, unit)` triple — it ignores `category` and `notes`
(conjunct 1) and is determined by the normalized components (conjunct 2);
the normalization collapses whitespace and the stripped punctuation class
wherever they occur (conjunct 3) and is case-insensitive (conjunct 4); and
in the final map the entry for each key is exactly the LAST accumulated
item with that key — complete overwrite, not a merge (conjunct 5). -/
theorem c2_dedup_key :
    (∀ (it : FlyerItem) (cat : String) (nts : Option String),
      makeDedupKey { it with category := cat, notes := nts } = makeDedupKey it) ∧
    (∀ it1 it2 : FlyerItem, normKey it1.name = normKey it2.name →
      it1.priceYen = it2.priceYen →
      normKey (it1.unit.getD "") = normKey (it2.unit.getD "") →
      makeDedupKey it1 = makeDedupKey it2) ∧
    (∀ (l1 l2 : List Char) (c : Char), isWsChar c = true ∨ isPunctChar c = true →
      normL (l1 ++ c :: l2) = normL (l1 ++ l2)) ∧
    (∀ l : List Char, normL (l.map lowerJS) = normL l) ∧
    (∀ (items : List FlyerItem) (k : String),
      mapLookup k (dedupByKey items) =
        (items.filter fun it => makeDedupKey it = k).getLast?) := by
  refine ⟨fun it cat nts => rfl, ?_, fun l1 l2 c hc => normL_insert hc,
    normL_map_lower, mapLookup_dedupByKey⟩
  intro it1 it2 hn hp hu
  unfold makeDedupKey
  rw [hn, hp, hu]

/-- Witness for `c2_dedup_key`: two items differing only by ASCII case,
(ideographic) whitespace and full-width punctuation in `name`/`unit` get
equal keys, and a concrete whitespace insertion is invisible to `norm`. -/
theorem c2_dedup_key_witness :
    makeDedupKey ⟨"精肉", "Tomato (大)", 100, some "100 g", none⟩ =
      makeDedupKey ⟨"青果", "TOMATO　（大）", 100, some "100g", some "メモ"⟩ ∧
    normL ('a' :: ' ' :: 'b' :: []) = normL ('a' :: 'b' :: []) :=
  ⟨c2_dedup_key.2.1 ⟨"精肉", "Tomato (大)", 100, some "100 g", none⟩
      ⟨"青果", "TOMATO　（大）", 100, some "100g", some "メモ"⟩
      (by decide) (by decide) (by decide),
   c2_dedup_key.2.2.1 ('a' :: []) ('b' :: []) ' ' (Or.inl (by decide))⟩

theorem mem_insertSorted {le : α → α → Bool} {x y : α} :
    ∀ {l : List α}, x ∈ insertSorted le y l ↔ x = y ∨ x ∈ l
  | [] => by simp [insertSorted]
  | z :: zs => by
    simp only [insertSorted]
    split
    · simp only [List.mem_cons, mem_insertSorted (l := zs)]
      try tauto
    · simp only [List.mem_cons]
      try tauto

theorem mem_sortStable_aux {le : α → α → Bool} {x : α} :
    ∀ (l : List α) (acc : List α),
      (x ∈ l.foldl (fun acc x => insertSorted le x acc) acc ↔ x ∈ acc ∨ x ∈ l)
  | [], acc => by simp
  | y :: ys, acc => by
    simp only [List.foldl_cons]
    rw [mem_sortStable_aux ys (insertSorted le y acc)]
    simp only [mem_insertSorted, List.mem_cons]
    tauto

theorem mem_sortStable {le : α → α → Bool} {x : α} {l : List α} :
    x ∈ sortStable le l ↔ x ∈ l := by
  unfold sortStable
  rw [mem_sortStable_aux l []]
  simp

theorem parseShufooTileUrl_url {urlStr k : String} {t : ShufooTile}
    (h : parseShufooTileUrl urlStr = some (k, t)) : t.url = urlStr := by
  unfold parseShufooTileUrl at h
  split at h
  · exact absurd h (by simp)
  · split at h
    · split at h
      · exact absurd h (by simp)
      · injection h with h
        injection h with h1 h2
        subst h2
        rfl
    · split at h
      · injection h with h
        injection h with h1 h2
        subst h2
        rfl
      · exact absurd h (by simp)

/-- The grouping invariant of the `Map` in `pickShufooTileGroups`: every
tile of every group parses back to that group's key and itself. -/
def GroupsWF (m : List (String × List ShufooTile)) : Prop :=
  ∀ g ∈ m, ∀ t ∈ g.2, parseShufooTileUrl t.url = some (g.1, t)

theorem groupsWF_addToGroup {m : List (String × List ShufooTile)} {k : String}
    {t : ShufooTile} (hm : GroupsWF m)
    (ht : parseShufooTileUrl t.url = some (k, t)) :
    GroupsWF (addToGroup m k t) := by
  unfold addToGroup
  split
  · intro g hg
    rw [List.mem_map] at hg
    obtain ⟨g0, hg0, rfl⟩ := hg
    by_cases hk : g0.1 = k
    · rw [if_pos hk]
      intro t' ht'
      simp only [List.mem_append, List.mem_singleton] at ht'
      rcases ht' with ht' | rfl
      · exact hm g0 hg0 t' ht'
      · rw [hk]
        exact ht
    · rw [if_neg hk]
      exact hm g0 hg0
  · intro g hg
    rw [List.mem_append, List.mem_singleton] at hg
    rcases hg with hg | rfl
    · exact hm g hg
    · intro t' ht'
      rw [List.mem_singleton] at ht'
      subst ht'
      exact ht

theorem groupsWF_fold :
    ∀ (urls : List String) (m : List (String × List ShufooTile)), GroupsWF m →
      GroupsWF (urls.foldl (fun m u =>
        match parseShufooTileUrl u with
        | none => m
        | some (k, t) => addToGroup m k t) m)
  | [], m, hm => hm
  | u :: rest, m, hm => by
    simp only [List.foldl_cons]
    apply groupsWF_fold rest
    rcases hp : parseShufooTileUrl u with _ | ⟨k, t⟩
    · exact hm
    · exact groupsWF_addToGroup hm (by rw [parseShufooTileUrl_url hp]; exact hp)

/-- C7: every emitted grid has at least two members whose tiles all parse
back to the grid's `(origin, directory, page, size)` key (conjunct 1); a
parsed three-number tile's `(row, col)` is `(tileIndex / 2, tileIndex % 2)`
for some `tileIndex ≤ 3` (conjunct 2); the four sibling URLs
`.../3_800_0.jpg` … `.../3_800_3.jpg` form exactly one grid of four tiles
keyed by page 3 and size 800 (conjunct 3); and a lone such URL yields no
grid (conjunct 4). -/
theorem c7_tile_grouping :
    (∀ (urls : List String) (g : String × List ShufooTile),
      g ∈ pickShufooTileGroups urls →
      2 ≤ g.2.length ∧ ∀ t ∈ g.2, parseShufooTileUrl t.url = some (g.1, t)) ∧
    (∀ (urlStr k : String) (t : ShufooTile),
      parseShufooTileUrl urlStr = some (k, t) → ∀ p, t.page = some p →
      ∃ idx, idx ≤ 3 ∧ t.row = idx / 2 ∧ t.col = idx % 2) ∧
    pickShufooTileGroups
      ["https://cmn.shufoo.net/p/3_800_0.jpg", "https://cmn.shufoo.net/p/3_800_1.jpg",
       "https://cmn.shufoo.net/p/3_800_2.jpg", "https://cmn.shufoo.net/p/3_800_3.jpg"] =
      [("https://cmn.shufoo.net/p/3_800",
        [⟨"https://cmn.shufoo.net/p/3_800_0.jpg", 0, 0, some 3⟩,
         ⟨"https://cmn.shufoo.net/p/3_800_1.jpg", 0, 1, some 3⟩,
         ⟨"https://cmn.shufoo.net/p/3_800_2.jpg", 1, 0, some 3⟩,
         ⟨"https://cmn.shufoo.net/p/3_800_3.jpg", 1, 1, some 3⟩])] ∧
    pickShufooTileGroups ["https://cmn.shufoo.net/p/3_800_0.jpg"] = [] := by
  refine ⟨?_, ?_, by rfl, by rfl⟩
  · intro urls g hg
    unfold pickShufooTileGroups at hg
    split at hg
    · simp at hg
    · rw [mem_sortStable, mem_sortStable] at hg
      unfold shufooTileGroups at hg
      rw [List.mem_filter] at hg
      obtain ⟨hmem, hlen⟩ := hg
      refine ⟨by simpa using hlen, ?_⟩
      exact groupsWF_fold urls [] (by intro g hg; simp at hg) g hmem
  · intro urlStr k t h p hp
    unfold parseShufooTileUrl at h
    split at h
    · exact absurd h (by simp)
    · split at h
      next page size tileIndex heq =>
        split at h
        · exact absurd h (by simp)
        next hle =>
          injection h with h
          injection h with h1 h2
          subst h2
          exact ⟨tileIndex, by omega, rfl, rfl⟩
      · split at h
        · injection h with h
          injection h with h1 h2
          subst h2
          simp at hp
        · exact absurd h (by simp)

/-- Witness for `c7_tile_grouping`: the four-URL grid satisfies the
universal grid properties, and tile 3 maps to `(row, col) = (1, 1)`. -/
theorem c7_tile_grouping_witness :
    (2 ≤ ([⟨"https://cmn.shufoo.net/p/3_800_0.jpg", 0, 0, some 3⟩,
           ⟨"https://cmn.shufoo.net/p/3_800_1.jpg", 0, 1, some 3⟩,
           ⟨"https://cmn.shufoo.net/p/3_800_2.jpg", 1, 0, some 3⟩,
           ⟨"https://cmn.shufoo.net/p/3_800_3.jpg", 1, 1, some 3⟩] :
        List ShufooTile).length ∧
      ∀ t ∈ ([⟨"https://cmn.shufoo.net/p/3_800_0.jpg", 0, 0, some 3⟩,
              ⟨"https://cmn.shufoo.net/p/3_800_1.jpg", 0, 1, some 3⟩,
              ⟨"https://cmn.shufoo.net/p/3_800_2.jpg", 1, 0, some 3⟩,
              ⟨"https://cmn.shufoo.net/p/3_800_3.jpg", 1, 1, some 3⟩] :
          List ShufooTile),
        parseShufooTileUrl t.url = some ("https://cmn.shufoo.net/p/3_800", t)) ∧
    (∃ idx, idx ≤ 3 ∧ 1 = idx / 2 ∧ 1 = idx % 2) :=
  ⟨c7_tile_grouping.1
      ["https://cmn.shufoo.net/p/3_800_0.jpg", "https://cmn.shufoo.net/p/3_800_1.jpg",
       "https://cmn.shufoo.net/p/3_800_2.jpg", "https://cmn.shufoo.net/p/3_800_3.jpg"]
      ("https://cmn.shufoo.net/p/3_800",
       [⟨"https://cmn.shufoo.net/p/3_800_0.jpg", 0, 0, some 3⟩,
        ⟨"https://cmn.shufoo.net/p/3_800_1.jpg", 0, 1, some 3⟩,
        ⟨"https://cmn.shufoo.net/p/3_800_2.jpg", 1, 0, some 3⟩,
        ⟨"https://cmn.shufoo.net/p/3_800_3.jpg", 1, 1, some 3⟩])
      (by rw [c7_tile_grouping.2.2.1]; exact List.mem_singleton_self _),
   c7_tile_grouping.2.1 "https://cmn.shufoo.net/p/3_800_3.jpg"
      "https://cmn.shufoo.net/p/3_800"
      ⟨"https://cmn.shufoo.net/p/3_800_3.jpg", 1, 1, some 3⟩ (by rfl) 3 rfl⟩

/-- C9 counterexample: the claim says a URL "not matching the convention"
(whose convention requires `tileIndex ∈ {0,1,2,3}`) yields `null`, but
`expandShufooTileUrls` performs NO range check on the tile index: the
basename `7_800_9.jpg` (tile index 9) is still expanded to eight URLs. -/
theorem c9_counterexample :
    matchTileName3 ('7' :: '_' :: '8' :: '0' :: '0' :: '_' :: '9' :: '.' ::
        'j' :: 'p' :: 'g' :: []) = some (7, 800, 9) ∧
    (3 : ℕ) < 9 ∧
    expandShufooTileUrls "https://cmn.shufoo.net/p/7_800_9.jpg" =
      some ["https://cmn.shufoo.net/p/7_800_0.jpg", "https://cmn.shufoo.net/p/7_800_1.jpg",
            "https://cmn.shufoo.net/p/7_800_2.jpg", "https://cmn.shufoo.net/p/7_800_3.jpg",
            "https://cmn.shufoo.net/p/8_800_0.jpg", "https://cmn.shufoo.net/p/8_800_1.jpg",
            "https://cmn.shufoo.net/p/8_800_2.jpg", "https://cmn.shufoo.net/p/8_800_3.jpg"] := by
  refine ⟨by rfl, by norm_num, by rfl⟩

/-- C9 (amended): for every URL whose basename matches
`<page>_<size>_<tileIndex>.<ext>` with ANY numeric tile index (the code does
not range-check it here), speculative expansion returns exactly the eight
URLs with tile indices 0–3 for `page` and `page+1`, in that order, each
carrying the `.jpg` extension regardless of the source extension; an
unparseable URL or a basename not matching the three-number convention
yields `null`. -/
theorem c9_expand :
    (∀ (urlStr : String) (u : Url) (page size idx : ℕ),
      parseUrlC urlStr.data = some u →
      matchTileName3 (basenameOf u) = some (page, size, idx) →
      expandShufooTileUrls urlStr =
        some [mkTileUrl u page size 0, mkTileUrl u page size 1,
              mkTileUrl u page size 2, mkTileUrl u page size 3,
              mkTileUrl u (page + 1) size 0, mkTileUrl u (page + 1) size 1,
              mkTileUrl u (page + 1) size 2, mkTileUrl u (page + 1) size 3]) ∧
    (∀ (u : Url) (p size i : ℕ), ∃ pre,
      (mkTileUrl u p size i).data = pre ++ ('.' :: 'j' :: 'p' :: 'g' :: [])) ∧
    (∀ urlStr : String, parseUrlC urlStr.data = none →
      expandShufooTileUrls urlStr = none) ∧
    (∀ (urlStr : String) (u : Url), parseUrlC urlStr.data = some u →
      matchTileName3 (basenameOf u) = none →
      expandShufooTileUrls urlStr = none) := by
  refine ⟨?_, ?_, ?_, ?_⟩
  · intro urlStr u page size idx hparse hmatch
    unfold expandShufooTileUrls
    rw [hparse]
    simp only [hmatch]
    rfl
  · intro u p size i
    refine ⟨originChars u ++ dirOf u ++ (toString p).data ++
      '_' :: (toString size).data ++ '_' :: (toString i).data, ?_⟩
    simp [mkTileUrl]
  · intro urlStr hparse
    unfold expandShufooTileUrls
    rw [hparse]
  · intro urlStr u hparse hmatch
    unfold expandShufooTileUrls
    rw [hparse]
    simp only [hmatch]

/-- Witness for `c9_expand`: the expansion equation at the concrete tile
URL `.../3_800_0.jpg`, and the `.jpg` suffix of one generated URL. -/
theorem c9_expand_witness :
    (∃ pre, ("https://cmn.shufoo.net/p/3_800_0.jpg" : String).data =
      pre ++ ('.' :: 'j' :: 'p' :: 'g' :: [])) ∧
    expandShufooTileUrls "https://cmn.shufoo.net/p/3_800_0.jpg" =
      some ["https://cmn.shufoo.net/p/3_800_0.jpg", "https://cmn.shufoo.net/p/3_800_1.jpg",
            "https://cmn.shufoo.net/p/3_800_2.jpg", "https://cmn.shufoo.net/p/3_800_3.jpg",
            "https://cmn.shufoo.net/p/4_800_0.jpg", "https://cmn.shufoo.net/p/4_800_1.jpg",
            "https://cmn.shufoo.net/p/4_800_2.jpg", "https://cmn.shufoo.net/p/4_800_3.jpg"] :=
  ⟨(by
      have h := c9_expand.2.1
        ⟨true, "cmn.shufoo.net".data,
          [('p' :: []), ('3' :: '_' :: '8' :: '0' :: '0' :: '_' :: '0' :: '.' ::
            'j' :: 'p' :: 'g' :: [])], none, none⟩ 3 800 0
      simpa using h),
   by
    have h := c9_expand.1 "https://cmn.shufoo.net/p/3_800_0.jpg"
      ⟨true, "cmn.shufoo.net".data,
        [('p' :: []), ('3' :: '_' :: '8' :: '0' :: '0' :: '_' :: '0' :: '.' ::
          'j' :: 'p' :: 'g' :: [])], none, none⟩ 3 800 0 (by rfl) (by rfl)
    simpa using h⟩

theorem composeLoop_all_ok {storeId : StoreId} {w0 h0 : ℕ}
    (hw0 : 0 < w0) (hh0 : 0 < h0) :
    ∀ {tiles : List (ShufooTile × FetchOutcome)},
      (∀ x ∈ tiles, x.2 = FetchOutcome.ok w0 h0) →
      (∀ x ∈ tiles, allowedUrl storeId x.1.url) →
      composeLoop storeId tiles =
        (.ok (tiles.map fun x => ⟨x.1.row, x.1.col, w0, h0⟩),
         tiles.flatMap fun x =>
           [.validated storeId x.1.url, .fetched x.1.url])
  | [], _, _ => rfl
  | (t, out) :: rest, hok, hallow => by
    obtain ⟨u, hu⟩ := hallow (t, out) (List.mem_cons_self _ _)
    have hout : out = FetchOutcome.ok w0 h0 := hok (t, out) (List.mem_cons_self _ _)
    subst hout
    simp only [composeLoop, hu]
    rw [composeLoop_all_ok hw0 hh0
      (fun x hx => hok x (List.mem_cons_of_mem _ hx))
      (fun x hx => hallow x (List.mem_cons_of_mem _ hx))]
    have hz : ¬(w0 = 0 || h0 = 0) = true := by
      simp only [Bool.or_eq_true, decide_eq_true_eq]
      omega
    simp only [hz, if_neg, if_false, List.map_cons, List.flatMap_cons]
    rfl

/-- C6 counterexample: the claim says compositing "returns no result (null,
not an error) when fewer than 2 tiles were successfully fetched and
normalized", but a tile whose fetch raises propagates as an ERROR out of
`composeShufooTiles` (there is no try/catch inside it): with one failing
fetch and one successful tile, the result is `Except.error`, not `ok none`. -/
theorem c6_counterexample :
    composeShufooTiles StoreId.itoyokado_kawasaki
      [(⟨"https://cmn.shufoo.net/c/3_800_0.jpg", 0, 0, some 3⟩,
        FetchOutcome.fail "network down"),
       (⟨"https://cmn.shufoo.net/c/3_800_1.jpg", 0, 1, some 3⟩,
        FetchOutcome.ok 800 600)] =
      (Except.error "network down",
       [NetEvent.validated StoreId.itoyokado_kawasaki "https://cmn.shufoo.net/c/3_800_0.jpg",
        NetEvent.fetched "https://cmn.shufoo.net/c/3_800_0.jpg"]) := by
  rfl

/-- C6 (amended): for a group of tiles that all fetch and decode to the same
positive dimensions, the composite canvas is `(maxCol-minCol+1)·w0` by
`(maxRow-minRow+1)·h0` (the first tile's dimensions), on a white background,
with each tile pasted at `((col-minCol)·w0, (row-minRow)·h0)` (conjunct 1);
compositing yields `ok none` (null, no error) when fewer than 2 tiles
survive fetch+decode (conjunct 2, here: fewer than 2 tiles in the group);
and the concrete 2×2 grid of 800×600 tiles gives a 1600×1200 canvas with
tile `(1,1)` pasted at `(800,600)` (conjunct 3).  A tile whose fetch throws
aborts with an error instead (see the counterexample). -/
theorem c6_compose :
    (∀ (storeId : StoreId) (tiles : List (ShufooTile × FetchOutcome)) (w0 h0 : ℕ),
      0 < w0 → 0 < h0 →
      (∀ x ∈ tiles, x.2 = FetchOutcome.ok w0 h0) →
      (∀ x ∈ tiles, allowedUrl storeId x.1.url) →
      2 ≤ tiles.length →
      composeShufooTiles storeId tiles =
        (.ok (some
          { width := (maxL (tiles.map fun x => x.1.col) -
              minL (tiles.map fun x => x.1.col) + 1) * w0
            height := (maxL (tiles.map fun x => x.1.row) -
              minL (tiles.map fun x => x.1.row) + 1) * h0
            background := (255, 255, 255, 1)
            pastes := tiles.map fun x =>
              (⟨x.1.row, x.1.col, w0, h0⟩,
               (x.1.col - minL (tiles.map fun x => x.1.col)) * w0,
               (x.1.row - minL (tiles.map fun x => x.1.row)) * h0) }),
         tiles.flatMap fun x =>
           [.validated storeId x.1.url, .fetched x.1.url])) ∧
    (∀ (storeId : StoreId) (tiles : List (ShufooTile × FetchOutcome)) (w0 h0 : ℕ),
      0 < w0 → 0 < h0 →
      (∀ x ∈ tiles, x.2 = FetchOutcome.ok w0 h0) →
      (∀ x ∈ tiles, allowedUrl storeId x.1.url) →
      tiles.length ≤ 1 →
      (composeShufooTiles storeId tiles).1 = .ok none) ∧
    composeShufooTiles StoreId.itoyokado_kawasaki
      [(⟨"https://cmn.shufoo.net/c/3_800_0.jpg", 0, 0, some 3⟩, FetchOutcome.ok 800 600),
       (⟨"https://cmn.shufoo.net/c/3_800_1.jpg", 0, 1, some 3⟩, FetchOutcome.ok 800 600),
       (⟨"https://cmn.shufoo.net/c/3_800_2.jpg", 1, 0, some 3⟩, FetchOutcome.ok 800 600),
       (⟨"https://cmn.shufoo.net/c/3_800_3.jpg", 1, 1, some 3⟩, FetchOutcome.ok 800 600)] =
      (.ok (some
        { width := 1600, height := 1200, background := (255, 255, 255, 1)
          pastes :=
            [(⟨0, 0, 800, 600⟩, 0, 0), (⟨0, 1, 800, 600⟩, 800, 0),
             (⟨1, 0, 800, 600⟩, 0, 600), (⟨1, 1, 800, 600⟩, 800, 600)] }),
       [.validated StoreId.itoyokado_kawasaki "https://cmn.shufoo.net/c/3_800_0.jpg",
        .fetched "https://cmn.shufoo.net/c/3_800_0.jpg",
        .validated StoreId.itoyokado_kawasaki "https://cmn.shufoo.net/c/3_800_1.jpg",
        .fetched "https://cmn.shufoo.net/c/3_800_1.jpg",
        .validated StoreId.itoyokado_kawasaki "https://cmn.shufoo.net/c/3_800_2.jpg",
        .fetched "https://cmn.shufoo.net/c/3_800_2.jpg",
        .validated StoreId.itoyokado_kawasaki "https://cmn.shufoo.net/c/3_800_3.jpg",
        .fetched "https://cmn.shufoo.net/c/3_800_3.jpg"]) := by
  refine ⟨?_, ?_, by rfl⟩
  · intro storeId tiles w0 h0 hw0 hh0 hok hallow hlen
    unfold composeShufooTiles
    rw [composeLoop_all_ok hw0 hh0 hok hallow]
    simp only [composeResult]
    rw [if_neg (by rw [List.length_map]; omega)]
    rcases tiles with _ | ⟨t0, rest⟩
    · simp at hlen
    · simp only [List.map_cons, List.map_map]
      rfl
  · intro storeId tiles w0 h0 hw0 hh0 hok hallow hlen
    unfold composeShufooTiles
    rw [composeLoop_all_ok hw0 hh0 hok hallow]
    simp only [composeResult]
    rw [if_pos (by rw [List.length_map]; omega)]

/-- Witness for `c6_compose`: the universal geometry applied to the concrete
2×2 grid, and the `ok none` outcome on a single-tile group. -/
theorem c6_compose_witness :
    composeShufooTiles StoreId.itoyokado_kawasaki
      [(⟨"https://cmn.shufoo.net/c/3_800_0.jpg", 0, 0, some 3⟩, FetchOutcome.ok 800 600),
       (⟨"https://cmn.shufoo.net/c/3_800_1.jpg", 0, 1, some 3⟩, FetchOutcome.ok 800 600)] =
      (.ok (some
        { width := 1600, height := 600, background := (255, 255, 255, 1)
          pastes := [(⟨0, 0, 800, 600⟩, 0, 0), (⟨0, 1, 800, 600⟩, 800, 0)] }),
       [.validated StoreId.itoyokado_kawasaki "https://cmn.shufoo.net/c/3_800_0.jpg",
        .fetched "https://cmn.shufoo.net/c/3_800_0.jpg",
        .validated StoreId.itoyokado_kawasaki "https://cmn.shufoo.net/c/3_800_1.jpg",
        .fetched "https://cmn.shufoo.net/c/3_800_1.jpg"]) ∧
    (composeShufooTiles StoreId.itoyokado_kawasaki
      [(⟨"https://cmn.shufoo.net/c/3_800_0.jpg", 0, 0, some 3⟩,
        FetchOutcome.ok 800 600)]).1 = .ok none :=
  ⟨c6_compose.1 StoreId.itoyokado_kawasaki
      [(⟨"https://cmn.shufoo.net/c/3_800_0.jpg", 0, 0, some 3⟩, FetchOutcome.ok 800 600),
       (⟨"https://cmn.shufoo.net/c/3_800_1.jpg", 0, 1, some 3⟩, FetchOutcome.ok 800 600)]
      800 600 (by norm_num) (by norm_num) (by decide) (by decide) (by decide),
   c6_compose.2.1 StoreId.itoyokado_kawasaki
      [(⟨"https://cmn.shufoo.net/c/3_800_0.jpg", 0, 0, some 3⟩, FetchOutcome.ok 800 600)]
      800 600 (by norm_num) (by norm_num) (by decide) (by decide) (by decide)⟩

/-- C8 counterexample: the claim says a fragment whose resolution fails is
"dropped silently … never emitted in the output", but `toAbs` in
`flyerDiscover.ts` returns the RAW fragment on failure, so the unparseable
`https://a b.pdf` (space in the host makes `new URL` throw) flows straight
into the discovery href list. -/
theorem c8_counterexample :
    toAbs "https://store.lifecorp.jp/detail/east624/" "https://a b.pdf" =
      "https://a b.pdf" ∧
    parseUrlC ("https://a b.pdf" : String).data = none ∧
    "https://a b.pdf" ∈ discoverHrefs ["https://a b.pdf"]
      "https://store.lifecorp.jp/detail/east624/" := by
  refine ⟨by rfl, by rfl, ?_⟩
  have heq : discoverHrefs ["https://a b.pdf"]
      "https://store.lifecorp.jp/detail/east624/" = ["https://a b.pdf"] := by rfl
  rw [heq]
  exact List.mem_singleton_self _

/-- C8 (amended): the `toAbsUrl`-based extractors of the extract-url route
return only absolute, parseable URLs — every output is the serialization of
a well-formed URL value that re-parses to it (conjunct 1) — and a
resolution failure yields `null` there, dropped silently (conjunct 2); but
`flyerDiscover.ts`'s `toAbs` returns the raw fragment unchanged on a
resolution failure (conjunct 3), so a malformed fragment can be emitted by
discovery (see the counterexample). -/
theorem c8_extract_urls :
    (∀ (captures : List String) (baseUrl : String) (u : String),
      u ∈ extractAttrUrls captures baseUrl →
      ∃ url : Url, url.WF ∧ u = String.mk (serializeUrl url) ∧
        parseUrlC u.data = some url) ∧
    (∀ raw baseUrl : String,
      newURL (decodeHtmlEntities (trimL raw.data)) baseUrl.data = none →
      toAbsUrl raw baseUrl = none) ∧
    (∀ base rel : String, newURL rel.data base.data = none →
      toAbs base rel = rel) := by
  refine ⟨?_, ?_, ?_⟩
  · intro captures baseUrl u hu
    unfold extractAttrUrls at hu
    rw [List.mem_filterMap] at hu
    obtain ⟨m, _, hm⟩ := hu
    unfold toAbsUrl at hm
    split at hm
    next url hurl =>
      injection hm with hm
      subst hm
      have hwf := wf_of_newURL hurl
      exact ⟨url, hwf, rfl, parseUrlC_serializeUrl hwf⟩
    · exact absurd hm (by simp)
  · intro raw baseUrl h
    unfold toAbsUrl
    rw [h]
  · intro base rel h
    unfold toAbs
    rw [h]

/-- Witness for `c8_extract_urls`: a relative href extracted against the
bicrise store base resolves to an absolute, re-parseable URL. -/
theorem c8_extract_urls_witness :
    ∃ url : Url, url.WF ∧
      ("https://www.bicrise.com/ooshima/flyer/1.jpg" : String) =
        String.mk (serializeUrl url) ∧
      parseUrlC ("https://www.bicrise.com/ooshima/flyer/1.jpg" : String).data =
        some url :=
  c8_extract_urls.1 ["flyer/1.jpg"] "https://www.bicrise.com/ooshima/"
    "https://www.bicrise.com/ooshima/flyer/1.jpg"
    (by
      have heq : extractAttrUrls ["flyer/1.jpg"] "https://www.bicrise.com/ooshima/" =
          ["https://www.bicrise.com/ooshima/flyer/1.jpg"] := by rfl
      rw [heq]
      exact List.mem_singleton_self _)

theorem leafletReplace_four (x b c d : List Char) (tail : List (List Char)) :
    leafletReplace (x :: b :: c :: d :: tail) =
      if x = "images".data ∧ b = "bargain_office_leaflets".data ∧ c ≠ [] then
        x :: b :: "o=true".data :: d :: tail
      else x :: leafletReplace (b :: c :: d :: tail) := rfl

theorem leafletReplace_length : ∀ l : List (List Char),
    (leafletReplace l).length = l.length
  | [] => rfl
  | [_] => rfl
  | [_, _] => rfl
  | [_, _, _] => rfl
  | x :: b :: c :: d :: tail => by
    rw [leafletReplace_four]
    split
    · simp
    · simp only [List.length_cons, leafletReplace_length (b :: c :: d :: tail)]

theorem leafletReplace_cons₂ : ∀ (a b : List Char) (rest : List (List Char)),
    ∃ t, leafletReplace (a :: b :: rest) = a :: b :: t ∧ t.length = rest.length
  | _, _, [] => ⟨[], rfl, rfl⟩
  | _, _, [c] => ⟨[c], rfl, rfl⟩
  | a, b, c :: d :: rest' => by
    rw [leafletReplace_four]
    split
    · exact ⟨"o=true".data :: d :: rest', rfl, by simp⟩
    · obtain ⟨t', ht', hl'⟩ := leafletReplace_cons₂ b c (d :: rest')
      refine ⟨c :: t', ?_, ?_⟩
      · rw [ht']
      · simp only [List.length_cons] at hl' ⊢
        omega

theorem mem_leafletReplace : ∀ {l : List (List Char)} {s : List Char},
    s ∈ leafletReplace l → s ∈ l ∨ s = "o=true".data
  | [], _, h => Or.inl h
  | [_], _, h => Or.inl h
  | [_, _], _, h => Or.inl h
  | [_, _, _], _, h => Or.inl h
  | x :: b :: c :: d :: tail, s, h => by
    rw [leafletReplace_four] at h
    split at h
    · simp only [List.mem_cons] at h ⊢
      tauto
    · simp only [List.mem_cons] at h
      rcases h with rfl | h
      · exact Or.inl (List.mem_cons_self _ _)
      · rcases mem_leafletReplace h with h' | h'
        · exact Or.inl (List.mem_cons_of_mem _ h')
        · exact Or.inr h'

/-- First-match replacement is idempotent: after one replacement the first
matching position holds the non-empty segment `o=true`, so a second scan
replaces nothing. -/
theorem leafletReplace_idem : ∀ l : List (List Char),
    leafletReplace (leafletReplace l) = leafletReplace l
  | [] => rfl
  | [_] => rfl
  | [_, _] => rfl
  | [_, _, _] => rfl
  | x :: b :: seg :: r :: tail => by
    by_cases hc : x = "images".data ∧ b = "bargain_office_leaflets".data ∧ seg ≠ []
    · rw [leafletReplace_four, if_pos hc, leafletReplace_four,
        if_pos ⟨hc.1, hc.2.1, by decide⟩]
    · rw [leafletReplace_four, if_neg hc]
      obtain ⟨t, ht, htlen⟩ := leafletReplace_cons₂ b seg (r :: tail)
      rw [ht]
      rcases t with _ | ⟨t0, t1⟩
      · exact absurd htlen (by simp)
      · rw [leafletReplace_four, if_neg hc, ← ht,
          leafletReplace_idem (b :: seg :: r :: tail)]

theorem leafletReplace_eq_singleton_nil {l : List (List Char)}
    (h : leafletReplace l = [[]]) : l = [[]] := by
  have hlen := leafletReplace_length l
  rw [h] at hlen
  rcases l with _ | ⟨x, rest⟩
  · simp at hlen
  · rcases rest with _ | ⟨y, rest'⟩
    · have hx : leafletReplace [x] = [x] := rfl
      rw [hx] at h
      exact h
    · simp at hlen

/-- A second application of the guarded rewrite changes nothing: once the
first matching position holds `o=true`, no further match fires. -/
theorem leafletStep_idem (l : List (List Char)) :
    leafletStep (leafletStep l) = leafletStep l := by
  unfold leafletStep
  rcases hli : leafletIncl l with _ | _
  · simp [hli]
  · simp only [hli, if_true]
    split
    · exact leafletReplace_idem l
    · rfl

/-- The guarded segment rewrite of `toTokubaiHighRes` preserves URL
well-formedness. -/
theorem wf_tokubaiSegs {u : Url} (h : u.WF) :
    Url.WF { u with segs := leafletStep u.segs } := by
  rcases h with ⟨h1, h2, h3, h4, h5⟩
  show Url.WF { u with segs := if leafletIncl u.segs then leafletReplace u.segs
                               else u.segs }
  split
  · refine ⟨h1, h2, ?_, ?_, h5⟩
    · intro hbad
      exact h3 (leafletReplace_eq_singleton_nil hbad)
    · intro p hp c hc
      rcases mem_leafletReplace hp with hmem | rfl
      · exact h4 p hmem c hc
      · have hod : ∀ x ∈ ("o=true".data : List Char), urlDelim x = false := by
          decide
        exact hod c hc
  · exact ⟨h1, h2, h3, h4, h5⟩

/-- C10 counterexample: the claim says "every URL already containing the
`/images/bargain_office_leaflets/o=true/` segment is a fixed point", but the
function re-serializes every parseable tokubai URL, so any non-normalized
spelling (here: an upper-case scheme) is changed even though the segment is
already present. -/
theorem c10_counterexample :
    inclL "/images/bargain_office_leaflets/o=true/".data
      ("HTTPS://image.tokubai.co.jp/images/bargain_office_leaflets/o=true/a.jpg" : String).data =
      true ∧
    toTokubaiHighRes
      "HTTPS://image.tokubai.co.jp/images/bargain_office_leaflets/o=true/a.jpg" =
      "https://image.tokubai.co.jp/images/bargain_office_leaflets/o=true/a.jpg" ∧
    ("HTTPS://image.tokubai.co.jp/images/bargain_office_leaflets/o=true/a.jpg" : String) ≠
      "https://image.tokubai.co.jp/images/bargain_office_leaflets/o=true/a.jpg" := by
  refine ⟨by rfl, by rfl, by decide⟩

/-- C10 (amended): `toTokubaiHighRes` is idempotent (conjunct 1); every
string that is not a parseable URL is a fixed point (conjunct 2); every URL
whose hostname does not include `tokubai.co.jp` is a fixed point
(conjunct 3); a parseable tokubai URL — in particular one already carrying
the `o=true` segment — maps to the WHATWG-normalized serialization of its
rewritten form (conjunct 4), which by conjunct 1 is itself a fixed point,
but need not equal the original spelling (see the counterexample). -/
theorem c10_tokubai_idempotent :
    (∀ s : String, toTokubaiHighRes (toTokubaiHighRes s) = toTokubaiHighRes s) ∧
    (∀ s : String, parseUrlC s.data = none → toTokubaiHighRes s = s) ∧
    (∀ (s : String) (u : Url), parseUrlC s.data = some u →
      inclL "tokubai.co.jp".data u.host = false → toTokubaiHighRes s = s) ∧
    (∀ (s : String) (u : Url), parseUrlC s.data = some u →
      inclL "tokubai.co.jp".data u.host = true →
      toTokubaiHighRes s = String.mk (serializeUrl
        { u with segs := leafletStep u.segs })) := by
  have hfix2 : ∀ s : String, parseUrlC s.data = none → toTokubaiHighRes s = s := by
    intro s hp
    unfold toTokubaiHighRes
    rw [hp]
  have hfix3 : ∀ (s : String) (u : Url), parseUrlC s.data = some u →
      inclL "tokubai.co.jp".data u.host = false → toTokubaiHighRes s = s := by
    intro s u hp hincl
    unfold toTokubaiHighRes
    rw [hp]
    simp only [hincl]
    rfl
  have hout : ∀ (s : String) (u : Url), parseUrlC s.data = some u →
      inclL "tokubai.co.jp".data u.host = true →
      toTokubaiHighRes s = String.mk (serializeUrl
        { u with segs := leafletStep u.segs }) := by
    intro s u hp hincl
    unfold toTokubaiHighRes
    rw [hp]
    simp only [hincl]
    rfl
  refine ⟨?_, hfix2, hfix3, hout⟩
  intro s
  rcases hp : parseUrlC s.data with _ | u
  · rw [hfix2 s hp, hfix2 s hp]
  · rcases hincl : inclL "tokubai.co.jp".data u.host with _ | _
    · rw [hfix3 s u hp hincl, hfix3 s u hp hincl]
    · rw [hout s u hp hincl]
      have hwf := wf_of_parseUrlC hp
      have hwf' := wf_tokubaiSegs hwf
      have hp' : parseUrlC (String.mk (serializeUrl
          { u with segs := leafletStep u.segs })).data =
          some { u with segs := leafletStep u.segs } :=
        parseUrlC_serializeUrl hwf'
      rw [hout _ _ hp' hincl]
      show String.mk (serializeUrl
          { u with segs := leafletStep (leafletStep u.segs) }) =
        String.mk (serializeUrl { u with segs := leafletStep u.segs })
      rw [leafletStep_idem]

/-- Witness for `c10_tokubai_idempotent`: a non-URL string is fixed, a
non-tokubai URL is fixed, and a tokubai leaflet URL is rewritten to the
`o=true` form. -/
theorem c10_tokubai_idempotent_witness :
    toTokubaiHighRes "not a url" = "not a url" ∧
    toTokubaiHighRes "https://example.com/a.jpg" = "https://example.com/a.jpg" ∧
    toTokubaiHighRes
        "https://image.tokubai.co.jp/images/bargain_office_leaflets/abc/d.jpg" =
      "https://image.tokubai.co.jp/images/bargain_office_leaflets/o=true/d.jpg" := by
  refine ⟨c10_tokubai_idempotent.2.1 "not a url" (by rfl), ?_, ?_⟩
  · exact c10_tokubai_idempotent.2.2.1 "https://example.com/a.jpg"
      ⟨true, "example.com".data, ["a.jpg".data], none, none⟩ (by rfl) (by rfl)
  · have h := c10_tokubai_idempotent.2.2.2
      "https://image.tokubai.co.jp/images/bargain_office_leaflets/abc/d.jpg"
      ⟨true, "image.tokubai.co.jp".data,
        ["images".data, "bargain_office_leaflets".data, "abc".data, "d.jpg".data],
        none, none⟩ (by rfl) (by rfl)
    rw [h]
    rfl

theorem paired_fetched {storeId : StoreId} {evs : List NetEvent}
    (hp : Paired storeId evs) :
    ∀ (u : String) (pre post : List NetEvent),
      evs = pre ++ NetEvent.fetched u :: post →
      NetEvent.validated storeId u ∈ pre ∧ allowedUrl storeId u := by
  induction hp with
  | nil =>
    intro u pre post habs
    rcases pre with _ | ⟨x, pre⟩ <;> simp at habs
  | cons v rest h hrest ih =>
    intro u pre post heq
    rcases pre with _ | ⟨x, pre'⟩
    · simp at heq
    · rw [List.cons_append, List.cons.injEq] at heq
      obtain ⟨hx, heq2⟩ := heq
      rcases pre' with _ | ⟨y, pre''⟩
      · rw [List.nil_append, List.cons.injEq] at heq2
        obtain ⟨hv, _⟩ := heq2
        injection hv with hv
        subst hv
        subst hx
        exact ⟨List.mem_singleton.mpr rfl, h⟩
      · rw [List.cons_append, List.cons.injEq] at heq2
        obtain ⟨hy, heq3⟩ := heq2
        obtain ⟨hmem, hok⟩ := ih u pre'' post heq3
        subst hx
        subst hy
        exact ⟨List.mem_cons_of_mem _ (List.mem_cons_of_mem _ hmem), hok⟩

theorem composeLoop_trace_paired (storeId : StoreId) :
    ∀ tiles : List (ShufooTile × FetchOutcome),
      Paired storeId (composeLoop storeId tiles).2
  | [] => Paired.nil
  | (t, out) :: rest => by
    have ih := composeLoop_trace_paired storeId rest
    rcases ha : assertAllowedUrl storeId t.url with e | u
    · simp only [composeLoop, ha]
      exact Paired.nil
    · rcases out with msg | ⟨w, hgt⟩
      · simp only [composeLoop, ha]
        exact Paired.cons t.url [] ⟨u, ha⟩ Paired.nil
      · rcases hr : composeLoop storeId rest with ⟨res, evs⟩
        rw [hr] at ih
        rcases res with e | entries
        · simp only [composeLoop, ha, hr]
          exact Paired.cons t.url evs ⟨u, ha⟩ ih
        · simp only [composeLoop, ha, hr]
          exact Paired.cons t.url evs ⟨u, ha⟩ ih

theorem fetchNormalizeLoop_trace_paired (storeId : StoreId)
    (stitched : List String) :
    ∀ ds : List (String × DownloadOutcome),
      Paired storeId (fetchNormalizeLoop storeId stitched ds).2.2
  | [] => Paired.nil
  | (urlStr, out) :: rest => by
    have ih := fetchNormalizeLoop_trace_paired storeId stitched rest
    rcases hc : stitched.contains urlStr with _ | _
    · rcases ha : assertAllowedUrl storeId urlStr with e | u
      · simp only [fetchNormalizeLoop, hc, ha]
        exact ih
      · rcases out with msg | pages | _
        · simp only [fetchNormalizeLoop, hc, ha]
          exact Paired.cons urlStr _ ⟨u, ha⟩ ih
        · simp only [fetchNormalizeLoop, hc, ha]
          exact Paired.cons urlStr _ ⟨u, ha⟩ ih
        · simp only [fetchNormalizeLoop, hc, ha]
          exact Paired.cons urlStr _ ⟨u, ha⟩ ih
    · simp only [fetchNormalizeLoop, hc]
      exact ih

theorem contentLength_trace (url : String) (head get : Option ProbeHeaders) :
    (contentLength url head get).2 = [NetEvent.fetched url] ∨
    (contentLength url head get).2 =
      [NetEvent.fetched url, NetEvent.fetched url] := by
  unfold contentLength
  rcases head with _ | hh
  · rcases get with _ | gh
    · exact Or.inr rfl
    · exact Or.inr rfl
  · rcases hph : headPhase hh with _ | n
    · rcases get with _ | gh
      · simp only [hph]
        exact Or.inr trivial
      · simp only [hph]
        exact Or.inr trivial
    · simp only [hph]
      exact Or.inl trivial

theorem resolveProbe_events (cands : List String)
    (responses : String → Option ProbeHeaders × Option ProbeHeaders) :
    ∀ ev ∈ (resolveProbe cands responses).2, ∃ v, ev = NetEvent.fetched v := by
  unfold resolveProbe
  generalize (cands.take (min cands.length 50)) = l
  induction l with
  | nil =>
    intro ev hev
    simp at hev
  | cons x xs ih =>
    intro ev hev
    simp only [List.map_cons, List.foldr_cons] at hev
    rw [List.mem_append] at hev
    rcases hev with h | h
    · rcases contentLength_trace x (responses x).1 (responses x).2 with ht | ht
      · rw [ht] at h
        rw [List.mem_singleton] at h
        exact ⟨x, h⟩
      · rw [ht] at h
        simp only [List.mem_cons, List.mem_singleton, or_self,
          List.not_mem_nil, or_false] at h
        exact ⟨x, h⟩
    · exact ih ev h

/-- C1 (amended): within `extract-url/route.ts` the claim holds — both fetch
loops (tile compositing and the asset download loop) emit a successful
allowlist validation of a URL strictly before every fetch of it (conjuncts
1-2), and a URL rejected by `assertAllowedUrl` is never fetched: the tile
loop aborts with the distinguishable error (conjunct 3) and the download
loop records a distinguishable warning (conjunct 4).  The original claim is
FALSE for the size probes: the resolve route defines no allowlist, and its
`contentLength` probes fetch with no validation event at all (conjunct 5 and
the counterexample). -/
theorem c1_allowlist_before_fetch :
    (∀ (storeId : StoreId) (tiles : List (ShufooTile × FetchOutcome))
       (u : String) (pre post : List NetEvent),
      (composeLoop storeId tiles).2 = pre ++ NetEvent.fetched u :: post →
      NetEvent.validated storeId u ∈ pre ∧ allowedUrl storeId u) ∧
    (∀ (storeId : StoreId) (stitched : List String)
       (ds : List (String × DownloadOutcome)) (u : String)
       (pre post : List NetEvent),
      (fetchNormalizeLoop storeId stitched ds).2.2 =
        pre ++ NetEvent.fetched u :: post →
      NetEvent.validated storeId u ∈ pre ∧ allowedUrl storeId u) ∧
    (∀ (storeId : StoreId) (t : ShufooTile) (out : FetchOutcome)
       (rest : List (ShufooTile × FetchOutcome)) (e : String),
      assertAllowedUrl storeId t.url = Except.error e →
      composeLoop storeId ((t, out) :: rest) = (Except.error e, [])) ∧
    (∀ (storeId : StoreId) (stitched : List String) (urlStr : String)
       (out : DownloadOutcome) (rest : List (String × DownloadOutcome))
       (e : String),
      stitched.contains urlStr = false →
      assertAllowedUrl storeId urlStr = Except.error e →
      fetchNormalizeLoop storeId stitched ((urlStr, out) :: rest) =
        ((fetchNormalizeLoop storeId stitched rest).1,
         ("fetch/normalize failed: " ++ urlStr ++ " :: " ++ e) ::
           (fetchNormalizeLoop storeId stitched rest).2.1,
         (fetchNormalizeLoop storeId stitched rest).2.2)) ∧
    (∀ (cands : List String)
       (responses : String → Option ProbeHeaders × Option ProbeHeaders)
       (sid : StoreId) (u : String),
      NetEvent.validated sid u ∉ (resolveProbe cands responses).2) := by
  refine ⟨?_, ?_, ?_, ?_, ?_⟩
  · intro storeId tiles u pre post h
    exact paired_fetched (composeLoop_trace_paired storeId tiles) u pre post h
  · intro storeId stitched ds u pre post h
    exact paired_fetched (fetchNormalizeLoop_trace_paired storeId stitched ds)
      u pre post h
  · intro storeId t out rest e h
    simp only [composeLoop, h]
  · intro storeId stitched urlStr out rest e hc ha
    simp only [fetchNormalizeLoop, hc, ha]
    rfl
  · intro cands responses sid u hmem
    obtain ⟨v, hv⟩ := resolveProbe_events cands responses _ hmem
    simp at hv

/-- Witness for `c1_allowlist_before_fetch`: a concrete one-tile compose
trace has its only fetch preceded by a validation of the same URL, and a
tile with a disallowed host aborts the loop with the distinguishable error
before any fetch. -/
theorem c1_allowlist_before_fetch_witness :
    (NetEvent.validated StoreId.itoyokado_kawasaki
        "https://cmn.shufoo.net/c/3_800_0.jpg" ∈
      [NetEvent.validated StoreId.itoyokado_kawasaki
        "https://cmn.shufoo.net/c/3_800_0.jpg"] ∧
      allowedUrl StoreId.itoyokado_kawasaki
        "https://cmn.shufoo.net/c/3_800_0.jpg") ∧
    composeLoop StoreId.aoba_oshima
        [(⟨"https://evil.example/x.jpg", 0, 0, none⟩, FetchOutcome.ok 800 600)] =
      (Except.error "URL host not allowed for aoba_oshima: evil.example", []) := by
  refine ⟨?_, ?_⟩
  · exact c1_allowlist_before_fetch.1 StoreId.itoyokado_kawasaki
      [(⟨"https://cmn.shufoo.net/c/3_800_0.jpg", 0, 0, some 3⟩,
        FetchOutcome.ok 800 600)]
      "https://cmn.shufoo.net/c/3_800_0.jpg"
      [NetEvent.validated StoreId.itoyokado_kawasaki
        "https://cmn.shufoo.net/c/3_800_0.jpg"]
      [] (by rfl)
  · exact c1_allowlist_before_fetch.2.2.1 StoreId.aoba_oshima
      ⟨"https://evil.example/x.jpg", 0, 0, none⟩ (FetchOutcome.ok 800 600) []
      "URL host not allowed for aoba_oshima: evil.example" (by rfl)

/-- C1 counterexample: the resolve route's size probe (`contentLength`,
called from its POST loop as modelled by `resolveProbe`) fetches a URL whose
host is in no store's allowlist — twice — and its trace contains no
validation event at all, so no allowlist check precedes these fetches. -/
theorem c1_counterexample :
    (resolveProbe ["https://evil.example/x.jpg"] (fun _ => (none, none))).2 =
      [NetEvent.fetched "https://evil.example/x.jpg",
       NetEvent.fetched "https://evil.example/x.jpg"] ∧
    (∀ sid : StoreId, assertAllowedUrl sid "https://evil.example/x.jpg" =
      Except.error ("URL host not allowed for " ++ sid.str ++ ": evil.example")) ∧
    (∀ (sid : StoreId) (u : String),
      NetEvent.validated sid u ∉
        (resolveProbe ["https://evil.example/x.jpg"]
          (fun _ => (none, none))).2) := by
  refine ⟨rfl, ?_, ?_⟩
  · intro sid
    cases sid <;> rfl
  · intro sid u hmem
    have htr : (resolveProbe ["https://evil.example/x.jpg"]
        (fun _ => (none, none))).2 =
        [NetEvent.fetched "https://evil.example/x.jpg",
         NetEvent.fetched "https://evil.example/x.jpg"] := rfl
    rw [htr] at hmem
    simp at hmem

end FlyerMenu
